import Mathlib

/-!
Verification of the vibesheet form-scanning engine against its
natural-language specification.

The development shallowly embeds the DOM-facing core of the repository:
the DOM is a tree of elements (light children, optional shadow root,
optional same-origin iframe document), CSS selectors are the abstract
syntax actually synthesized and consumed by the code (tag, id, classes,
nth-of-type, attribute equality, child combinator), and each source
function (uniqueSelector, buildUniqueSelector, extractLabelText,
resolveLabelText, queryDeepAll, scanDOM, FormFiller._resolveElement,
the mutation debounce, generateMapping, autoMap) is translated into an
executable Lean function over this model.

Modelling conventions:
- element identity is positional: a path of child indices within its
  context (document or shadow root), and an address is the list of
  boundary crossings from the top document plus such a path;
- machine floats in the mapping engine are modelled by exact rationals
  (the scores are quotients of tiny natural numbers, far from any
  double rounding boundary);
- `instanceof HTMLInputElement` and friends are modelled by tag tests;
- the DOM is a tree, so the WeakSet visited-guards of the sources are
  identity no-ops and are not carried by the embedding;
- string helpers (trim, split, join, digit parsing) are implemented
  over `List Char` so that every definition evaluates inside the
  kernel; they agree with the JS operations on the ASCII selector
  grammar in play.
-/

namespace VibeSheet

/-- Attributes and reflected properties of one DOM element.
`typeProp` is the value of the reflected `.type` property (the empty
string standing for `undefined`), `forAttr` the `for` attribute of a
label, `text` the element's own text content. -/
structure ElemData where
  tag : String
  idAttr : String := ""
  classes : List String := []
  typeProp : String := ""
  nameAttr : String := ""
  contentEditable : Bool := false
  forAttr : String := ""
  text : String := ""
  deriving Repr, DecidableEq

mutual

/-- A DOM element: data, light-DOM children, an optional open shadow
root, and, for iframes, an optional accessible same-origin content
document.  An absent frame covers both non-iframes and cross-origin
frames, whose documents the code can never enter. -/
inductive Elem where
  | node (data : ElemData) (children : Forest) (shadow : OptForest) (frame : OptForest)

/-- A list of sibling elements (a specialised list, so that recursion
over the tree stays structural). -/
inductive Forest where
  | nil
  | cons (e : Elem) (rest : Forest)

/-- An optional nested context (a specialised option). -/
inductive OptForest where
  | none
  | some (f : Forest)

end

def Elem.data : Elem → ElemData
  | .node d _ _ _ => d

def Elem.childrenF : Elem → Forest
  | .node _ c _ _ => c

def Elem.shadowO : Elem → OptForest
  | .node _ _ s _ => s

def Elem.frameO : Elem → OptForest
  | .node _ _ _ f => f

def Forest.toList : Forest → List Elem
  | .nil => []
  | .cons e rest => e :: rest.toList

/-- Build a forest from a list (fixture convenience). -/
def forestOf : List Elem → Forest
  | [] => .nil
  | e :: rest => .cons e (forestOf rest)

/-- An execution context (document or shadow root), as its top-level
element list. -/
abbrev Ctx := Forest

/-- The position of an element inside a context: child indices from the
context root down. -/
abbrev Path := List Nat

/-- Element lookup by path. -/
def getAt : Ctx → Path → Option Elem
  | _, [] => Option.none
  | f, [i] => f.toList.get? i
  | f, i :: rest =>
    match f.toList.get? i with
    | Option.some e => getAt e.childrenF rest
    | Option.none => Option.none

/-- The `parentElement` of an element at a path: top-level elements of
a document or shadow root have no parent element. -/
def parentPath (p : Path) : Option Path :=
  if 2 ≤ p.length then Option.some p.dropLast else Option.none

/-- The sibling list of the element at `p` (children of its parent
node, which is the context root for top-level elements). -/
def siblingsOf (ctx : Ctx) (p : Path) : List Elem :=
  match p with
  | [] => []
  | [_] => ctx.toList
  | _ =>
    match getAt ctx p.dropLast with
    | Option.some e => e.childrenF.toList
    | Option.none => []

/-- Increment the first index of a path (used to shift sibling paths). -/
def bumpHead : Path → Path
  | [] => []
  | i :: t => (i + 1) :: t

/-- All element paths of a context in document (pre-)order, as
`querySelectorAll` enumerates candidates.  Shadow roots and iframe
documents are separate contexts and are never entered. -/
def allPaths : Forest → List Path
  | .nil => []
  | .cons (.node _ ch _ _) rest =>
    [0] :: (allPaths ch).map (fun q => 0 :: q) ++ (allPaths rest).map bumpHead

/-! ### Selectors -/

/-- One compound selector: optional tag, optional id, class list,
optional nth-of-type ordinal, exact-match attribute tests. -/
structure Compound where
  tag : Option String := Option.none
  idSel : Option String := Option.none
  classes : List String := []
  nth : Option Nat := Option.none
  attrs : List (String × String) := []
  deriving Repr, DecidableEq

/-- A selector as synthesized by the repository: compounds joined by
the child combinator, root-most first. -/
abbrev Sel := List Compound

/-- The value an attribute selector reads from an element (absent
attributes are modelled by the empty string in `ElemData`). -/
def attrVal (e : Elem) (n : String) : Option String :=
  if n = "for" then (if e.data.forAttr = "" then Option.none else Option.some e.data.forAttr)
  else if n = "name" then
    (if e.data.nameAttr = "" then Option.none else Option.some e.data.nameAttr)
  else if n = "id" then
    (if e.data.idAttr = "" then Option.none else Option.some e.data.idAttr)
  else Option.none

/-- The 1-based position of the element at `p` among its same-tag
siblings, as CSS nth-of-type counts it. -/
def nthOfTypeIndex (ctx : Ctx) (p : Path) : Nat :=
  match getAt ctx p, p.getLast? with
  | Option.some e, Option.some j =>
    1 + (((siblingsOf ctx p).take j).filter (fun s => s.data.tag = e.data.tag)).length
  | _, _ => 0

/-- Does the element at `p` match one compound selector? -/
def matchesCompound (ctx : Ctx) (c : Compound) (p : Path) : Bool :=
  match getAt ctx p with
  | Option.none => false
  | Option.some e =>
    (match c.tag with | Option.none => true | Option.some t => t = e.data.tag) &&
    (match c.idSel with | Option.none => true | Option.some i => i = e.data.idAttr && i ≠ "") &&
    c.classes.all (fun cl => e.data.classes.contains cl) &&
    (match c.nth with | Option.none => true | Option.some k => nthOfTypeIndex ctx p = k) &&
    c.attrs.all (fun a => attrVal e a.1 = Option.some a.2)

/-- Match a child-combinator chain, last compound first, walking up the
parent chain.  The root-most compound may sit at any depth. -/
def matchRev (ctx : Ctx) : List Compound → Option Path → Bool
  | [], _ => true
  | _ :: _, Option.none => false
  | c :: rest, Option.some p => matchesCompound ctx c p && matchRev ctx rest (parentPath p)

/-- Does the element at `p` match the full selector? -/
def matchesSel (ctx : Ctx) (sel : Sel) (p : Path) : Bool :=
  matchRev ctx sel.reverse (Option.some p)

/-- `ctx.querySelectorAll(sel)`: all matching elements in document
order, as paths. -/
def queryAll (ctx : Ctx) (sel : Sel) : List Path :=
  (allPaths ctx).filter (fun p => matchesSel ctx sel p)

/-- `ctx.querySelector(sel)`: the first match, if any. -/
def queryOne (ctx : Ctx) (sel : Sel) : Option Path :=
  (queryAll ctx sel).head?

/-! ### String utilities (kernel-evaluable stand-ins for the JS ones) -/

theorem dropWhile_length_le (p : Char → Bool) (l : List Char) :
    (l.dropWhile p).length ≤ l.length := by
  induction l with
  | nil => simp
  | cons c rest ih =>
    by_cases h : p c = true
    · simp only [List.dropWhile_cons, h, if_true, List.length_cons]
      exact Nat.le_succ_of_le ih
    · simp [List.dropWhile_cons, h]

/-- `trim`: strip leading and trailing whitespace. -/
def strTrim (s : String) : String :=
  String.mk (((s.toList.dropWhile Char.isWhitespace).reverse.dropWhile
    Char.isWhitespace).reverse)

/-- Split on the reserved `>>>` delimiter, as the split in
`queryDeepAll` does. -/
def splitDeepAux : List Char → List Char → List String
  | [], acc => [String.mk acc.reverse]
  | '>' :: '>' :: '>' :: rest, acc => String.mk acc.reverse :: splitDeepAux rest []
  | c :: rest, acc => splitDeepAux rest (c :: acc)

def splitDeep (s : String) : List String :=
  splitDeepAux s.toList []

/-- Split on the child combinator character. -/
def splitGtAux : List Char → List Char → List String
  | [], acc => [String.mk acc.reverse]
  | '>' :: rest, acc => String.mk acc.reverse :: splitGtAux rest []
  | c :: rest, acc => splitGtAux rest (c :: acc)

def splitGt (s : String) : List String :=
  splitGtAux s.toList []

/-- `Array.prototype.join(sep)`. -/
def joinSep (sep : String) : List String → String
  | [] => ""
  | [x] => x
  | x :: rest => x ++ sep ++ joinSep sep rest

/-- Decimal digits to a number. -/
def digitsToNat : List Char → Nat → Nat
  | [], acc => acc
  | c :: rest, acc => digitsToNat rest (acc * 10 + (c.toNat - '0'.toNat))

/-! ### Selector strings

The sources build selector strings (`tag.cls:nth-of-type(k)` fragments
joined by the child combinator, deep fragments joined by the reserved
delimiter) and re-parse them through `querySelectorAll`.  We print the
abstract syntax exactly as the sources concatenate it, and parse the
same grammar; a string outside the grammar is an invalid selector, on
which the DOM selector engine throws a SyntaxError. -/

/-- Print one compound exactly as the sources concatenate it. -/
def printCompound (c : Compound) : String :=
  (match c.idSel with | Option.some i => "#" ++ i | Option.none => "") ++
  (c.tag.getD "") ++
  String.join (c.classes.map (fun cl => "." ++ cl)) ++
  (match c.nth with
   | Option.some k => ":nth-of-type(" ++ toString k ++ ")"
   | Option.none => "") ++
  String.join (c.attrs.map (fun a => "[" ++ a.1 ++ "=" ++ a.2 ++ "]"))

/-- Print a child-combinator chain the way the sources join it. -/
def printSel (sel : Sel) : String :=
  joinSep " > " (sel.map printCompound)

/-- Is `c` an identifier character of the selector grammar? -/
def isIdentChar (c : Char) : Bool :=
  c.isAlpha || c.isDigit || c = '-' || c = '_'

/-- Longest identifier prefix of a character list. -/
def takeIdent : List Char → (List Char × List Char)
  | [] => ([], [])
  | c :: rest =>
    if isIdentChar c then
      let r := takeIdent rest
      (c :: r.1, r.2)
    else ([], c :: rest)

/-- Parse the suffix parts of a compound (id, classes, nth-of-type,
attribute tests) after the optional tag.  The fuel is the remaining
character count plus one; each step consumes at least one character,
so the fuel never runs out on the initial call. -/
def parsePartsF : Nat → List Char → Compound → Option Compound
  | 0, _, _ => Option.none
  | _ + 1, [], acc => Option.some acc
  | fuel + 1, '#' :: rest, acc =>
    let r := takeIdent rest
    if r.1.isEmpty then Option.none
    else parsePartsF fuel r.2 { acc with idSel := Option.some (String.mk r.1) }
  | fuel + 1, '.' :: rest, acc =>
    let r := takeIdent rest
    if r.1.isEmpty then Option.none
    else parsePartsF fuel r.2 { acc with classes := acc.classes ++ [String.mk r.1] }
  | fuel + 1, ':' :: rest, acc =>
    if rest.take 12 = "nth-of-type(".toList then
      if ((rest.drop 12).takeWhile Char.isDigit).isEmpty then Option.none
      else
        match (rest.drop 12).dropWhile Char.isDigit with
        | ')' :: more =>
          parsePartsF fuel more
            { acc with
                nth := Option.some (digitsToNat ((rest.drop 12).takeWhile Char.isDigit) 0) }
        | _ => Option.none
    else Option.none
  | fuel + 1, '[' :: rest, acc =>
    if (takeIdent rest).1.isEmpty then Option.none
    else
      match (takeIdent rest).2 with
      | '=' :: vrest =>
        if (takeIdent vrest).1.isEmpty then Option.none
        else
          match (takeIdent vrest).2 with
          | ']' :: more =>
            parsePartsF fuel more
              { acc with attrs := acc.attrs ++
                  [(String.mk (takeIdent rest).1, String.mk (takeIdent vrest).1)] }
          | _ => Option.none
      | _ => Option.none
  | _, _, _ => Option.none

/-- Parse one compound: optional leading tag identifier, then id,
class, nth-of-type and attribute parts.  `Option.none` models the
SyntaxError the DOM selector engine raises on anything outside the
grammar. -/
def parseCompound (s : String) : Option Compound :=
  match s.toList with
  | [] => Option.none
  | cs =>
    let t := takeIdent cs
    let base : Compound :=
      if t.1.isEmpty then {} else { tag := Option.some (String.mk t.1) }
    match parsePartsF (cs.length + 1) t.2 base with
    | Option.some c => if c = {} then Option.none else Option.some c
    | Option.none => Option.none

/-- Parse a list of fragments, failing if any fails. -/
def parseFragments : List String → Option Sel
  | [] => Option.some []
  | s :: rest =>
    match parseCompound s, parseFragments rest with
    | Option.some c, Option.some cs => Option.some (c :: cs)
    | _, _ => Option.none

/-- Parse a child-combinator chain (`a > b.c > d:nth-of-type(2)`). -/
def parseSel (s : String) : Option Sel :=
  parseFragments ((splitGt s).map strTrim)

/-! ### Text content and label helpers -/

mutual

/-- Concatenated text of an element's light subtree, as `textContent`
reads it (shadow and iframe content excluded). -/
def textContent : Elem → String
  | .node d ch _ _ => d.text ++ textContentF ch

def textContentF : Forest → String
  | .nil => ""
  | .cons e rest => textContent e ++ textContentF rest

end

/-- `s || null`: the empty string is falsy. -/
def strToOpt (s : String) : Option String :=
  if s = "" then Option.none else Option.some s

/-- Collapse every whitespace run to a single space, as
`replace(/\s+/g, ' ')` does; the flag records whether the previous
character was part of a run. -/
def collapseWsAux : List Char → Bool → List Char
  | [], _ => []
  | c :: rest, prevWs =>
    if c.isWhitespace then
      if prevWs then collapseWsAux rest true else ' ' :: collapseWsAux rest true
    else c :: collapseWsAux rest false

def collapseWs (s : String) : String :=
  String.mk (collapseWsAux s.toList false)

/-! ### Selector synthesis

`uniqueSelector` (contentscript.ts) and `buildUniqueSelector`
(part_007) synthesize a selector for an element relative to its
immediate context.  The bottom-up loops walk the parent chain, which
the embedding passes as the reversed path (`rp.reverse` is the current
element's path; the tail of `rp` is the parent's reversed path). -/

/-- The `#id` compound. -/
def idCompound (i : String) : Compound :=
  { idSel := Option.some i }

/-- The fragment loop of `uniqueSelector`.  Mirrors the source: a
tag+classes fragment that alone matches exactly one node
short-circuits; a null `parentElement` breaks out of the loop before
the current fragment is recorded; a same-tag sibling ordinal is added
only when the parent has several same-tag children. -/
def selLoop (ctx : Ctx) (rp : Path) (acc : List Compound) : List Compound :=
  match rp with
  | [] => acc
  | _ :: rest =>
    match getAt ctx rp.reverse with
    | Option.none => acc
    | Option.some e =>
      let withCls : Compound := { tag := Option.some e.data.tag, classes := e.data.classes }
      if e.data.classes ≠ [] ∧ (queryAll ctx [withCls]).length = 1 then
        withCls :: acc
      else
        let sel0 : Compound :=
          if e.data.classes ≠ [] then withCls else { tag := Option.some e.data.tag }
        match rest with
        | [] => acc
        | _ :: _ =>
          let sameTag :=
            (siblingsOf ctx rp.reverse).filter (fun s => s.data.tag = e.data.tag)
          let sel1 :=
            if 1 < sameTag.length then
              { sel0 with nth := Option.some (nthOfTypeIndex ctx rp.reverse) }
            else sel0
          selLoop ctx rest (sel1 :: acc)

/-- `uniqueSelector(el, root)` from contentscript.ts: the `#id`
shortcut when the id is unique in the context, otherwise the fragment
chain built by `selLoop`. -/
def uniqueSelector (ctx : Ctx) (p : Path) : Sel :=
  match getAt ctx p with
  | Option.none => []
  | Option.some e =>
    if e.data.idAttr ≠ "" ∧ (queryAll ctx [idCompound e.data.idAttr]).length = 1 then
      [idCompound e.data.idAttr]
    else
      selLoop ctx p.reverse []

/-- The fragment loop of `buildUniqueSelector` (part_007): every
fragment is recorded, including the one whose parent is null, but the
ordinal disambiguator is only added when a parent element exists. -/
def buildLoop (ctx : Ctx) (rp : Path) (acc : List Compound) : List Compound :=
  match rp with
  | [] => acc
  | _ :: rest =>
    match getAt ctx rp.reverse with
    | Option.none => acc
    | Option.some e =>
      let part : Compound := { tag := Option.some e.data.tag, classes := e.data.classes }
      match rest with
      | [] => part :: acc
      | _ :: _ =>
        let sameTag :=
          (siblingsOf ctx rp.reverse).filter (fun s => s.data.tag = e.data.tag)
        let part1 :=
          if 1 < sameTag.length then
            { part with nth := Option.some (nthOfTypeIndex ctx rp.reverse) }
          else part
        buildLoop ctx rest (part1 :: acc)

/-- `buildUniqueSelector(el, root)` from part_007: the `#id` shortcut
is taken whenever the element has an id, without any uniqueness
check. -/
def buildUniqueSelector (ctx : Ctx) (p : Path) : Sel :=
  match getAt ctx p with
  | Option.none => []
  | Option.some e =>
    if e.data.idAttr ≠ "" then [idCompound e.data.idAttr]
    else buildLoop ctx p.reverse []

/-! ### Label extraction -/

/-- `previousElementSibling` of the element at `p`. -/
def prevSibling (ctx : Ctx) (p : Path) : Option Elem :=
  match p.getLast? with
  | Option.none => Option.none
  | Option.some j => if j = 0 then Option.none else (siblingsOf ctx p).get? (j - 1)

/-- The `label[for=id]` query compound. -/
def labelForCompound (i : String) : Compound :=
  { tag := Option.some "label", attrs := [("for", i)] }

/-- `extractLabelText` from contentscript.ts.  The id-linked rule is
searched in the top document (the source always queries `document`),
then an immediately preceding sibling label is tried; there is no
enclosing-ancestor rule. -/
def extractLabelText (topDoc : Ctx) (ctx : Ctx) (p : Path) : Option String :=
  match getAt ctx p with
  | Option.none => Option.none
  | Option.some e =>
    let byFor : Option String :=
      if e.data.tag ∈ ["input", "select", "textarea"] ∧ e.data.idAttr ≠ "" then
        match queryOne topDoc [labelForCompound e.data.idAttr] with
        | Option.some lp =>
          match getAt topDoc lp with
          | Option.some l => Option.some (strTrim (textContent l))
          | Option.none => Option.none
        | Option.none => Option.none
      else Option.none
    match byFor with
    | Option.some t => Option.some t
    | Option.none =>
      match prevSibling ctx p with
      | Option.some prev =>
        if prev.data.tag = "label" then Option.some (strTrim (textContent prev))
        else Option.none
      | Option.none => Option.none

/-- Ancestor walk of `resolveLabelText` (part_007), on the reversed
ancestor path: the first enclosing label ancestor decides the result
(its trimmed text, or null when that text is empty), and the walk does
not continue past it. -/
def ancestorLabel (ctx : Ctx) : Path → Option String
  | [] => Option.none
  | i :: rest =>
    match getAt ctx ((i :: rest).reverse) with
    | Option.none => Option.none
    | Option.some e =>
      if e.data.tag = "label" then strToOpt (strTrim (textContent e))
      else ancestorLabel ctx rest

/-- `resolveLabelText` from part_007: id-linked label first (falling
through when its trimmed text is empty), then the nearest enclosing
label ancestor; the final text has its whitespace collapsed. -/
def resolveLabelText (ownerDoc : Ctx) (ctx : Ctx) (p : Path) : Option String :=
  match getAt ctx p with
  | Option.none => Option.none
  | Option.some e =>
    let l1 : Option String :=
      if e.data.idAttr ≠ "" then
        match queryOne ownerDoc [labelForCompound e.data.idAttr] with
        | Option.some lp =>
          match getAt ownerDoc lp with
          | Option.some l => strToOpt (strTrim (textContent l))
          | Option.none => Option.none
        | Option.none => Option.none
      else Option.none
    let l2 :=
      match l1 with
      | Option.some t => Option.some t
      | Option.none => ancestorLabel ctx p.reverse.tail
    l2.map collapseWs

/-! ### DOM scanning (`scanDOM` in contentscript.ts) -/

/-- The merged, fully defaulted scan options (`DEFAULT_OPTIONS`). -/
structure ScanOptions where
  includeShadowDom : Bool := true
  maxDepth : Nat := 7
  iframeTraversal : Bool := true
  deriving Repr, DecidableEq

/-- A boundary crossing, identified by the host element's path within
the context being left. -/
inductive Crossing where
  | shadow (host : Path)
  | frame (host : Path)
  deriving Repr, DecidableEq

/-- The identity of an element anywhere in the deep DOM: the chain of
boundary crossings from the top document plus the path in its own
context.  This is the positional stand-in for the live element
reference the sources hold. -/
abbrev Addr := List Crossing × Path

/-- The `FieldInfo` record pushed by `scanDOM`. -/
structure FieldInfo where
  selector : String
  tag : String
  type : String
  nameAttr : Option String
  label : Option String
  deriving Repr, DecidableEq

/-- One scan result: the source record plus the captured element's
address and the traversal depth at which it was recorded (both are
metadata the source holds implicitly, as the live element reference
and the `depth` argument). -/
structure FieldRec where
  addr : Addr
  depth : Nat
  info : FieldInfo
  deriving Repr, DecidableEq

/-- The fillable-element test of `scanDOM` (input, select, textarea or
content-editable). -/
def isFillable (d : ElemData) : Bool :=
  d.tag ∈ ["input", "select", "textarea"] || d.contentEditable

/-- `(el as HTMLInputElement).type || el.tagName.toLowerCase()`. -/
def typeOf (d : ElemData) : String :=
  if d.typeProp ≠ "" then d.typeProp else d.tag

/-- `(el as HTMLInputElement).name || undefined`: only form controls
reflect the name attribute as a property. -/
def nameOf (d : ElemData) : Option String :=
  if d.tag ∈ ["input", "select", "textarea"] ∧ d.nameAttr ≠ "" then
    Option.some d.nameAttr
  else Option.none

/-- Join path parts and the local selector into the deep selector
string, exactly as `scanDOM` concatenates them. -/
def deepSelStr (pparts : List String) (sel : String) : String :=
  match pparts with
  | [] => sel
  | _ => joinSep " >>> " pparts ++ " >>> " ++ sel

/-- The `FieldInfo` built for a fillable element. -/
def mkInfo (topDoc root : Ctx) (pparts : List String) (p : Path) (d : ElemData) :
    FieldInfo :=
  { selector := deepSelStr pparts (printSel (uniqueSelector root p))
    tag := d.tag
    type := typeOf d
    nameAttr := nameOf d
    label := extractLabelText topDoc root p }

mutual

/-- `traverse` on an element node: record the field if fillable, then
descend into the shadow root, the iframe document, and the light
children.  The depth budget is spent by every recursive step; entering
a shadow root or iframe document costs one step for the root node
(whose guard is inlined here) and a second one for its children. -/
def scanE (cfg : ScanOptions) (topDoc root : Ctx) (cross : List Crossing)
    (pparts : List String) (p : Path) (e : Elem) (depth : Nat) : List FieldRec :=
  match e with
  | .node d ch sh fr =>
    if cfg.maxDepth < depth then []
    else
      (if isFillable d then [⟨(cross, p), depth, mkInfo topDoc root pparts p d⟩] else []) ++
      (match sh with
       | .some shf =>
         if cfg.includeShadowDom then
           if cfg.maxDepth < depth + 1 then []
           else
             scanF cfg topDoc shf (cross ++ [.shadow p])
               (pparts ++ [printSel (uniqueSelector root p)]) [] 0 shf (depth + 2)
         else []
       | .none => []) ++
      (match fr with
       | .some fd =>
         if cfg.iframeTraversal ∧ d.tag = "iframe" then
           if cfg.maxDepth < depth + 1 then []
           else
             scanF cfg topDoc fd (cross ++ [.frame p])
               (pparts ++ [printSel (uniqueSelector root p)]) [] 0 fd (depth + 2)
         else []
       | .none => []) ++
      scanF cfg topDoc root cross pparts p 0 ch (depth + 1)

/-- Traversal of a child list; `base ++ [i]` is the path of the next
element. -/
def scanF (cfg : ScanOptions) (topDoc root : Ctx) (cross : List Crossing)
    (pparts : List String) (base : Path) (i : Nat) (es : Forest) (depth : Nat) :
    List FieldRec :=
  match es with
  | .nil => []
  | .cons e rest =>
    scanE cfg topDoc root cross pparts (base ++ [i]) e depth ++
    scanF cfg topDoc root cross pparts base (i + 1) rest depth

end

/-- `scanDOM(options)`: traverse the whole document from depth 0 (the
document node always passes the guard, its children sit at depth 1). -/
def scanDOM (cfg : ScanOptions) (doc : Ctx) : List FieldRec :=
  scanF cfg doc doc [] [] [] 0 doc 1

mutual

/-- Comparison definition for the depth-bound analysis: the `scanDOM`
traversal of an element with every `maxDepth` guard removed.  Used to
state which fields the bound excludes. -/
def scanAllE (cfg : ScanOptions) (topDoc root : Ctx) (cross : List Crossing)
    (pparts : List String) (p : Path) (e : Elem) (depth : Nat) : List FieldRec :=
  match e with
  | .node d ch sh fr =>
    (if isFillable d then [⟨(cross, p), depth, mkInfo topDoc root pparts p d⟩] else []) ++
    (match sh with
     | .some shf =>
       if cfg.includeShadowDom then
         scanAllF cfg topDoc shf (cross ++ [.shadow p])
           (pparts ++ [printSel (uniqueSelector root p)]) [] 0 shf (depth + 2)
       else []
     | .none => []) ++
    (match fr with
     | .some fd =>
       if cfg.iframeTraversal ∧ d.tag = "iframe" then
         scanAllF cfg topDoc fd (cross ++ [.frame p])
           (pparts ++ [printSel (uniqueSelector root p)]) [] 0 fd (depth + 2)
       else []
     | .none => []) ++
    scanAllF cfg topDoc root cross pparts p 0 ch (depth + 1)

/-- Unbounded traversal of a child list. -/
def scanAllF (cfg : ScanOptions) (topDoc root : Ctx) (cross : List Crossing)
    (pparts : List String) (base : Path) (i : Nat) (es : Forest) (depth : Nat) :
    List FieldRec :=
  match es with
  | .nil => []
  | .cons e rest =>
    scanAllE cfg topDoc root cross pparts (base ++ [i]) e depth ++
    scanAllF cfg topDoc root cross pparts base (i + 1) rest depth

end

/-- All fillable fields of the deep DOM, with their traversal depths:
the scan with no depth bound. -/
def scanAllFields (cfg : ScanOptions) (doc : Ctx) : List FieldRec :=
  scanAllF cfg doc doc [] [] [] 0 doc 1

instance {ε α : Type} [DecidableEq ε] [DecidableEq α] : DecidableEq (Except ε α) :=
  fun a b =>
    match a, b with
    | .ok x, .ok y =>
      if h : x = y then .isTrue (by rw [h]) else .isFalse (by simp [h])
    | .ok _, .error _ => .isFalse (by simp)
    | .error _, .ok _ => .isFalse (by simp)
    | .error x, .error y =>
      if h : x = y then .isTrue (by rw [h]) else .isFalse (by simp [h])

/-! ### Deep queries (`queryDeepAll` in contentscript.ts) -/

/-- The boundary step of `queryDeepAll` on one intermediate match: an
accessible same-origin iframe contributes its content document, a
shadow host its shadow root, anything else is dropped. -/
def boundaryCtx (cross : List Crossing) (ctx : Ctx) (p : Path) :
    Option (List Crossing × Ctx) :=
  match getAt ctx p with
  | Option.none => Option.none
  | Option.some e =>
    match e.frameO with
    | .some fd =>
      if e.data.tag = "iframe" then Option.some (cross ++ [.frame p], fd)
      else
        match e.shadowO with
        | .some sh => Option.some (cross ++ [.shadow p], sh)
        | .none => Option.none
    | .none =>
      match e.shadowO with
      | .some sh => Option.some (cross ++ [.shadow p], sh)
      | .none => Option.none

/-- Split a deep selector into fragments: split on the reserved
delimiter, trim, drop empty fragments (the `.filter(Boolean)`). -/
def deepParts (s : String) : List String :=
  ((splitDeep s).map strTrim).filter (fun f => f ≠ "")

/-- One intermediate hop: every match of `sel` in every surviving
context contributes its boundary content, and non-boundaries are
dropped. -/
def hopStep (ctxs : List (List Crossing × Ctx)) (sel : Sel) :
    List (List Crossing × Ctx) :=
  ctxs.flatMap (fun c => (queryAll c.2 sel).filterMap (boundaryCtx c.1 c.2))

/-- The fragment loop of `queryDeepAll`.  Each fragment is evaluated in
every current context; an invalid fragment makes `querySelectorAll`
throw (modelled as `Except.error ()`), an intermediate hop with no
surviving boundary short-circuits to the empty result before later
fragments are ever evaluated. -/
def deepLoop (ctxs : List (List Crossing × Ctx)) : List String → Except Unit (List Addr)
  | [] => .ok []
  | [last] =>
    match parseSel last with
    | Option.none => .error ()
    | Option.some sel =>
      .ok (ctxs.flatMap (fun c => (queryAll c.2 sel).map (fun p => (c.1, p))))
  | part :: rest =>
    match parseSel part with
    | Option.none => .error ()
    | Option.some sel =>
      if (hopStep ctxs sel).isEmpty then .ok []
      else deepLoop (hopStep ctxs sel) rest

/-- `queryDeepAll(deepSelector)` over a document: the addresses of the
matched elements, or `Except.error` for the SyntaxError an invalid
fragment raises. -/
def queryDeepAll (doc : Ctx) (s : String) : Except Unit (List Addr) :=
  if deepParts s = [] then .ok []
  else deepLoop [([], doc)] (deepParts s)

/-! ### Descriptor resolution (`FormFiller._resolveElement`) -/

/-- One hop of a stored `framePath`: a shadow-host selector string or a
frame index. -/
inductive Hop where
  | sel (s : String)
  | idx (n : Nat)
  deriving Repr, DecidableEq

/-- The parts of a `FieldMapping` the resolver reads. -/
structure FieldMapping where
  selector : String
  column : String := ""
  kind : String := ""
  framePath : List Hop
  deriving Repr, DecidableEq

/-- The `iframe` tag selector the resolver uses for numeric hops. -/
def iframeCompound : Compound :=
  { tag := Option.some "iframe" }

/-- The hop loop of `_resolveElement`.  `win` is the current window's
document (with its crossing prefix), `ctx` the current query context,
which optional chaining lets go null without failing.  A numeric hop
indexes `querySelectorAll('iframe')` of the current window's document;
an absent iframe or content window returns null for the whole
resolution (the model treats a cross-origin frame as an absent content
window).  A selector hop is only parsed when the context is non-null;
an invalid stored selector then throws.  With no hops left,
`querySelector(map.selector)` runs in the final context. -/
def resolveHops (selStr : String) :
    List Hop → (List Crossing × Ctx) → Option (List Crossing × Ctx) →
    Except Unit (Option Addr)
  | [], _, ctx =>
    match ctx with
    | Option.none => .ok Option.none
    | Option.some (cr, c) =>
      match parseSel selStr with
      | Option.none => .error ()
      | Option.some sel => .ok ((queryOne c sel).map (fun p => (cr, p)))
  | .idx n :: rest, win, _ =>
    match (queryAll win.2 [iframeCompound]).get? n with
    | Option.none => .ok Option.none
    | Option.some ip =>
      match getAt win.2 ip with
      | Option.none => .ok Option.none
      | Option.some e =>
        match e.frameO with
        | .none => .ok Option.none
        | .some fd =>
          resolveHops selStr rest (win.1 ++ [.frame ip], fd)
            (Option.some (win.1 ++ [.frame ip], fd))
  | .sel s :: rest, win, ctx =>
    match ctx with
    | Option.none => resolveHops selStr rest win Option.none
    | Option.some (cr, c) =>
      match parseSel s with
      | Option.none => .error ()
      | Option.some hopSel =>
        match queryOne c hopSel with
        | Option.none => resolveHops selStr rest win Option.none
        | Option.some hp =>
          match getAt c hp with
          | Option.none => resolveHops selStr rest win Option.none
          | Option.some host =>
            match host.shadowO with
            | .some sh => resolveHops selStr rest win (Option.some (cr ++ [.shadow hp], sh))
            | .none => resolveHops selStr rest win Option.none

/-- `FormFiller._resolveElement(map)`: replay the frame path from the
top document, then evaluate `querySelector(map.selector)` in the final
context. -/
def resolveElement (doc : Ctx) (map : FieldMapping) : Except Unit (Option Addr) :=
  resolveHops map.selector map.framePath ([], doc) (Option.some ([], doc))

/-! ### Mutation debounce (`observeMutations`)

The debounce logic is embedded as a deterministic event fold: the
input is the ordered list of times at which the mutation callback
fires, the output the list of times at which the debounced `scanDOM`
runs.  A pending timer set at `d` fires before a mutation at `t` iff
`d ≤ t`; the scan itself is synchronous, so it completes at its start
time.  This is the cooperative event-loop semantics of the host. -/

/-- Process mutation callback times against an optional pending timer
deadline; each mutation clears any pending timer and re-arms it 300ms
later, exactly as the observer callback does. -/
def debounceLoop : List Nat → Option Nat → List Nat
  | [], Option.none => []
  | [], Option.some d => [d]
  | t :: rest, Option.none => debounceLoop rest (Option.some (t + 300))
  | t :: rest, Option.some d =>
    if d ≤ t then d :: debounceLoop rest (Option.some (t + 300))
    else debounceLoop rest (Option.some (t + 300))

/-- The scan times produced by a sequence of mutation callbacks. -/
def runDebounce (ms : List Nat) : List Nat :=
  debounceLoop ms Option.none

/-! ### Mapping engine (mappingengine.ts) -/

/-- The `FieldInfo` of mappingengine.ts. -/
structure MFieldInfo where
  selector : String
  label : Option String := Option.none
  name : Option String := Option.none
  deriving Repr, DecidableEq

/-- JS object assignment `obj[k] = v`: overwrite in place, keep first
insertion order. -/
def objSet : List (String × String) → String → String → List (String × String)
  | [], k, v => [(k, v)]
  | (k1, v1) :: rest, k, v =>
    if k1 = k then (k, v) :: rest else (k1, v1) :: objSet rest k v

/-- JS object lookup `obj[k]`. -/
def objGet : List (String × String) → String → Option String
  | [], _ => Option.none
  | (k1, v1) :: rest, k => if k1 = k then Option.some v1 else objGet rest k

/-- `generateMapping(fields, columns)`: throws on a length mismatch,
otherwise assigns `columns[i]` to `fields[i].selector` in order.  (The
source's error message interpolates the two lengths; the model keeps a
fixed message, only the thrown-or-not distinction matters.  The inputs
are read, never written: the embedding is pure.) -/
def generateMapping (fields : List MFieldInfo) (columns : List String) :
    Except String (List (String × String)) :=
  if fields.length ≠ columns.length then
    .error "generateMapping: Mismatched lengths between fields and columns."
  else
    .ok (((fields.map (fun f => f.selector)).zip columns).foldl
      (fun m fc => objSet m fc.1 fc.2) [])

/-- Characters `tokenize` keeps (the complement of
`[^a-z0-9\s-]/gi`). -/
def keepChar (c : Char) : Bool :=
  c.isAlpha || c.isDigit || c.isWhitespace || c = '-'

/-- Split on whitespace runs, dropping empty pieces. -/
def splitWsAux : List Char → List Char → List String
  | [], [] => []
  | [], acc => [String.mk acc.reverse]
  | c :: rest, acc =>
    if c.isWhitespace then
      if acc.isEmpty then splitWsAux rest []
      else String.mk acc.reverse :: splitWsAux rest []
    else splitWsAux rest (c :: acc)

/-- `tokenize(str)` from mappingengine.ts. -/
def tokenize (s : String) : List String :=
  splitWsAux ((s.toList.filter keepChar).map Char.toLower) []

/-- First-occurrence deduplication, as a JS `Set` iterates. -/
def dedupF (l : List String) : List String :=
  go l []
where
  go : List String → List String → List String
    | [], _ => []
    | x :: xs, seen =>
      if seen.contains x then go xs seen else x :: go xs (seen ++ [x])

/-- An exact similarity score `num / den` with positive denominator.
The source computes these quotients in doubles; the operands here are
tiny naturals, where double arithmetic and exact arithmetic order
identically, so the embedding compares exact fractions by cross
multiplication. -/
structure Score where
  num : Nat
  den : Nat
  deriving Repr, DecidableEq

/-- Strict comparison of scores (`a < b` as rationals). -/
def scoreLt (a b : Score) : Bool :=
  a.num * b.den < b.num * a.den

/-- The `>= 0.2` threshold test (`1/5 ≤ a` as rationals). -/
def scoreGeFifth (a : Score) : Bool :=
  a.den ≤ 5 * a.num

/-- `jaccard(a, b)` on token sets (given as deduplicated lists): the
intersection size over the union size, or zero for two empty sets. -/
def jaccard (a b : List String) : Score :=
  let u := dedupF (a ++ b)
  if u.length = 0 then ⟨0, 1⟩
  else ⟨(a.filter (fun x => b.contains x)).length, u.length⟩

/-- The inner best-header loop of `autoMap`: skip used headers, keep
the first strictly improving score. -/
def bestHeader (headers : List String) (headerTokens : List (List String))
    (used : List String) (ftoks : List String) : Option Nat × Score :=
  (List.range headers.length).foldl
    (fun b i =>
      if used.contains (headers.getD i "") then b
      else
        let score := jaccard ftoks (headerTokens.getD i [])
        if scoreLt b.2 score then (Option.some i, score) else b)
    (Option.none, ⟨0, 1⟩)

/-- The text `autoMap` tokenizes for a field:
`field.label || field.name || ''`. -/
def fieldText (field : MFieldInfo) : String :=
  match field.label with
  | Option.some l => if l ≠ "" then l else (field.name.getD "")
  | Option.none => field.name.getD ""

/-- One `autoMap` iteration: state is the mapping so far and the used
headers. -/
def autoMapStep (headers : List String) (headerTokens : List (List String))
    (st : List (String × String) × List String) (field : MFieldInfo) :
    List (String × String) × List String :=
  if fieldText field = "" then st
  else
    let ftoks := dedupF (tokenize (fieldText field))
    let best := bestHeader headers headerTokens st.2 ftoks
    match best.1 with
    | Option.some i =>
      if scoreGeFifth best.2 then
        (objSet st.1 field.selector (headers.getD i ""), st.2 ++ [headers.getD i ""])
      else st
    | Option.none => st

/-- `autoMap(fields, headers)` from mappingengine.ts. -/
def autoMap (fields : List MFieldInfo) (headers : List String) :
    List (String × String) :=
  (fields.foldl (autoMapStep headers (headers.map (fun h => dedupF (tokenize h)))) ([], [])).1

/-! ### Concrete fixtures -/

/-- A bare input element. -/
def inputEl : Elem :=
  .node { tag := "input" } .nil .none .none

/-- A section wrapping one input. -/
def sectionInput : Elem :=
  .node { tag := "section" } (forestOf [inputEl]) .none .none

/-- A div hosting a shadow root with two sections, each holding an
input; no ids and no classes anywhere. -/
def shadowHostEl : Elem :=
  .node { tag := "div" } .nil (.some (forestOf [sectionInput, sectionInput])) .none

/-- The shadow context of `shadowHostEl`. -/
def shadowPairCtx : Ctx :=
  forestOf [sectionInput, sectionInput]

/-- A document whose body contains only the shadow host. -/
def hostDoc : Ctx :=
  forestOf [.node { tag := "html" }
    (forestOf [.node { tag := "body" } (forestOf [shadowHostEl]) .none .none]) .none .none]

/-- Two sibling elements sharing the id `dup`. -/
def dupIdCtx : Ctx :=
  forestOf [.node { tag := "input", idAttr := "dup" } .nil .none .none,
    .node { tag := "input", idAttr := "dup" } .nil .none .none]

/-- A document with a single fillable control at the top level:
`html > body > input`. -/
def topInputDoc : Ctx :=
  forestOf [.node { tag := "html" }
    (forestOf [.node { tag := "body" } (forestOf [inputEl]) .none .none]) .none .none]

/-- A document with two sibling inputs under body. -/
def pairInputDoc : Ctx :=
  forestOf [.node { tag := "html" }
    (forestOf [.node { tag := "body" } (forestOf [inputEl, inputEl]) .none .none]) .none .none]

/-- `<label>Name<input></label>` inside body: the input's only label
relation is the enclosing ancestor. -/
def ancestorLabelDoc : Ctx :=
  forestOf [.node { tag := "html" }
    (forestOf [.node { tag := "body" }
      (forestOf [.node { tag := "label", text := "Name" } (forestOf [inputEl]) .none .none])
      .none .none]) .none .none]

/-- `<label>Nm</label><input>` inside body: the input's only label
relation is the immediately preceding sibling. -/
def siblingLabelDoc : Ctx :=
  forestOf [.node { tag := "html" }
    (forestOf [.node { tag := "body" }
      (forestOf [.node { tag := "label", text := "Nm" } .nil .none .none, inputEl])
      .none .none]) .none .none]

/-- A mapping-engine field labelled "email address". -/
def emailField : MFieldInfo :=
  { selector := "s1", label := Option.some "email address" }

/-! ### C1: selector synthesis uniqueness -/

/-- C1 (the code violates the claim): for direct shadow-root children
the fragment loop of `uniqueSelector` breaks before recording the
undisambiguated top fragment, so both inputs of `shadowPairCtx` get
the local selector `input`, which matches two nodes in their context;
and `buildUniqueSelector` emits `#dup` for an element whose id occurs
twice, without the uniqueness check the claim requires, so `#dup`
matches two nodes.  Both contradict the functions' own doc comments
and names, which promise a unique selector. -/
theorem uniqueSelector_violates_uniqueness :
    uniqueSelector shadowPairCtx [0, 0] = [{ tag := Option.some "input" }] ∧
    queryAll shadowPairCtx (uniqueSelector shadowPairCtx [0, 0]) = [[0, 0], [1, 0]] ∧
    buildUniqueSelector dupIdCtx [0] = [idCompound "dup"] ∧
    queryAll dupIdCtx (buildUniqueSelector dupIdCtx [0]) = [[0], [1]] := by
  refine ⟨?_, ?_, ?_, ?_⟩ <;> decide

/-! ### C2: capture/resolve round trip -/

/-- C2 (the code violates the claim): scanning `hostDoc` captures the
two shadow inputs with the same deep selector, and resolving the
first field's descriptor immediately after the scan returns both
inputs, not exactly the captured one. -/
theorem roundTrip_returns_two_elements :
    (scanDOM {} hostDoc).map (fun r => (r.addr, r.info.selector)) =
      [(([Crossing.shadow [0, 0, 0]], [0, 0]), "body > div >>> input"),
       (([Crossing.shadow [0, 0, 0]], [1, 0]), "body > div >>> input")] ∧
    queryDeepAll hostDoc "body > div >>> input" =
      .ok [([Crossing.shadow [0, 0, 0]], [0, 0]),
           ([Crossing.shadow [0, 0, 0]], [1, 0])] ∧
    ([Crossing.shadow [0, 0, 0]], ([0, 0] : Path)) ≠
      ([Crossing.shadow [0, 0, 0]], [1, 0]) := by
  refine ⟨?_, ?_, ?_⟩ <;> decide

/-! ### C3: the depth bound

`traverse` spends one depth unit on every recursive call, so the bound
is consumed by ordinary DOM descent as well as boundary crossings.
The lemmas below characterise exactly which fields a bound excludes. -/

mutual

def sizeE : Elem → Nat
  | .node _ ch sh fr => 1 + sizeF ch + sizeO sh + sizeO fr

def sizeF : Forest → Nat
  | .nil => 0
  | .cons e rest => 1 + sizeE e + sizeF rest

def sizeO : OptForest → Nat
  | .none => 0
  | .some f => 1 + sizeF f

end

/-- The depth cost of a crossing chain: entering a context whose host
sits at path `h` places its children `h.length + 2` levels below the
enclosing context's root, one of which is accounted to the host path
and one to the nested root node. -/
def crossWeight (l : List Crossing) : Nat :=
  (l.map (fun c => match c with | .shadow h => h.length + 1 | .frame h => h.length + 1)).sum

theorem crossWeight_append (l : List Crossing) (c : Crossing) :
    crossWeight (l ++ [c]) =
      crossWeight l + (match c with | .shadow h => h.length + 1 | .frame h => h.length + 1) := by
  simp [crossWeight]

theorem mem_ite_nil {A : Type} (c : Prop) [Decidable c] (l : List A) (r : A) :
    r ∈ (if c then l else []) ↔ c ∧ r ∈ l := by
  split <;> simp_all

/-- Every record produced below traversal depth `d` carries depth at
least `d`. -/
theorem scanAll_depth_le (n : Nat) :
    ∀ es cfg td root cross pp base i d, sizeF es ≤ n →
      ∀ r ∈ scanAllF cfg td root cross pp base i es d, d ≤ r.depth := by
  induction n with
  | zero =>
    intro es cfg td root cross pp base i d hs r hr
    cases es with
    | nil => simp [scanAllF] at hr
    | cons e rest => simp [sizeF] at hs
  | succ n ih =>
    intro es cfg td root cross pp base i d hs r hr
    cases es with
    | nil => simp [scanAllF] at hr
    | cons e rest =>
      have hsz : 1 + sizeE e + sizeF rest ≤ n + 1 := by
        simpa [sizeF] using hs
      rw [scanAllF] at hr
      rcases List.mem_append.mp hr with hE | hF
      · cases e with
        | node dd ch sh fr =>
          have hsizes : 1 + sizeF ch + sizeO sh + sizeO fr ≤ n := by
            have hse : sizeE (.node dd ch sh fr) = 1 + sizeF ch + sizeO sh + sizeO fr := by
              simp [sizeE]
            omega
          rw [scanAllE.eq_def] at hE
          rcases List.mem_append.mp hE with hE1 | hD
          · rcases List.mem_append.mp hE1 with hE2 | hC
            · rcases List.mem_append.mp hE2 with hA | hB
              · rcases (mem_ite_nil _ _ _).mp hA with ⟨hfill, hA2⟩
                simp at hA2
                subst hA2
                exact Nat.le_refl d
              · cases sh with
                | none => simp at hB
                | some shf =>
                  simp only at hB
                  rcases (mem_ite_nil _ _ _).mp hB with ⟨hinc, hB2⟩
                  have hshf : sizeF shf ≤ n := by
                    have hso : sizeO (OptForest.some shf) = 1 + sizeF shf := by
                      simp [sizeO]
                    omega
                  have := ih shf cfg td shf (cross ++ [.shadow (base ++ [i])])
                    (pp ++ [printSel (uniqueSelector root (base ++ [i]))]) [] 0 (d + 2)
                    hshf r hB2
                  omega
            · cases fr with
              | none => simp at hC
              | some fd =>
                simp only at hC
                rcases (mem_ite_nil _ _ _).mp hC with ⟨hfr2, hC2⟩
                have hfd : sizeF fd ≤ n := by
                  have hso : sizeO (OptForest.some fd) = 1 + sizeF fd := by
                    simp [sizeO]
                  omega
                have := ih fd cfg td fd (cross ++ [.frame (base ++ [i])])
                  (pp ++ [printSel (uniqueSelector root (base ++ [i]))]) [] 0 (d + 2)
                  hfd r hC2
                omega
          · have hch : sizeF ch ≤ n := by omega
            have := ih ch cfg td root cross pp (base ++ [i]) 0 (d + 1) hch r hD
            omega
      · have hrest : sizeF rest ≤ n := by omega
        exact ih rest cfg td root cross pp base (i + 1) d hrest r hF

/-- Element-level form of the depth lower bound. -/
theorem scanAllE_depth_le (cfg : ScanOptions) (td root : Ctx) (cross : List Crossing)
    (pp : List String) (base : Path) (i : Nat) (e : Elem) (d : Nat) :
    ∀ r ∈ scanAllE cfg td root cross pp (base ++ [i]) e d, d ≤ r.depth := by
  intro r hr
  refine scanAll_depth_le (sizeF (.cons e .nil)) (.cons e .nil) cfg td root cross pp
    base i d (Nat.le_refl _) r ?_
  rw [scanAllF]
  exact List.mem_append.mpr (Or.inl hr)

/-- The bounded scan is the unbounded scan filtered by the depth
bound. -/
theorem scan_eq_filter (n : Nat) :
    ∀ es cfg td root cross pp base i d, sizeF es ≤ n →
      scanF cfg td root cross pp base i es d =
        (scanAllF cfg td root cross pp base i es d).filter
          (fun r => r.depth ≤ cfg.maxDepth) := by
  induction n with
  | zero =>
    intro es cfg td root cross pp base i d hs
    cases es with
    | nil => simp [scanF, scanAllF]
    | cons e rest => simp [sizeF] at hs
  | succ n ih =>
    intro es cfg td root cross pp base i d hs
    cases es with
    | nil => simp [scanF, scanAllF]
    | cons e rest =>
      have hsz : 1 + sizeE e + sizeF rest ≤ n + 1 := by
        simpa [sizeF] using hs
      rw [scanF, scanAllF, List.filter_append]
      have hrest : scanF cfg td root cross pp base (i + 1) rest d =
          (scanAllF cfg td root cross pp base (i + 1) rest d).filter
            (fun r => r.depth ≤ cfg.maxDepth) :=
        ih rest cfg td root cross pp base (i + 1) d (by omega)
      rw [hrest]
      congr 1
      by_cases hcut : cfg.maxDepth < d
      · have hL : scanE cfg td root cross pp (base ++ [i]) e d = [] := by
          cases e with
          | node dd ch sh fr =>
            rw [scanE.eq_def]
            simp [hcut]
        have hR : (scanAllE cfg td root cross pp (base ++ [i]) e d).filter
            (fun r => r.depth ≤ cfg.maxDepth) = [] := by
          refine List.filter_eq_nil_iff.mpr (fun r hr => ?_)
          have hd := scanAllE_depth_le cfg td root cross pp base i e d r hr
          simp only [decide_eq_true_eq]
          omega
        rw [hL, hR]
      · have hdm : d ≤ cfg.maxDepth := Nat.le_of_not_lt hcut
        cases e with
        | node dd ch sh fr =>
          have hsizes : 1 + sizeF ch + sizeO sh + sizeO fr ≤ n := by
            have hse : sizeE (.node dd ch sh fr) = 1 + sizeF ch + sizeO sh + sizeO fr := by
              simp [sizeE]
            omega
          have hch := ih ch cfg td root cross pp (base ++ [i]) 0 (d + 1) (by omega)
          cases sh with
          | none =>
            cases fr with
            | none =>
              simp [scanE.eq_def, scanAllE.eq_def, List.filter_append, hcut, hdm, hch,
                apply_ite (List.filter (fun r : FieldRec => decide (r.depth ≤ cfg.maxDepth)))]
            | some fd =>
              by_cases hcut2 : cfg.maxDepth < d + 1
              · have hR : (scanAllF cfg td fd (cross ++ [.frame (base ++ [i])])
                    (pp ++ [printSel (uniqueSelector root (base ++ [i]))]) [] 0 fd
                    (d + 2)).filter (fun r => decide (r.depth ≤ cfg.maxDepth)) = [] := by
                  refine List.filter_eq_nil_iff.mpr (fun r hr => ?_)
                  have hd := scanAll_depth_le (sizeF fd) fd cfg td fd
                    (cross ++ [.frame (base ++ [i])])
                    (pp ++ [printSel (uniqueSelector root (base ++ [i]))]) [] 0 (d + 2)
                    (Nat.le_refl _) r hr
                  simp only [decide_eq_true_eq]
                  omega
                simp [scanE.eq_def, scanAllE.eq_def, List.filter_append, hcut, hcut2, hdm,
                  hch, hR,
                  apply_ite (List.filter (fun r : FieldRec => decide (r.depth ≤ cfg.maxDepth)))]
              · have hfd := ih fd cfg td fd (cross ++ [.frame (base ++ [i])])
                  (pp ++ [printSel (uniqueSelector root (base ++ [i]))]) [] 0 (d + 2)
                  (by
                    have hso : sizeO (OptForest.some fd) = 1 + sizeF fd := by simp [sizeO]
                    omega)
                simp [scanE.eq_def, scanAllE.eq_def, List.filter_append, hcut, hcut2, hdm,
                  hch, hfd,
                  apply_ite (List.filter (fun r : FieldRec => decide (r.depth ≤ cfg.maxDepth)))]
          | some shf =>
            have hshprep :
                (cfg.maxDepth < d + 1 →
                  (scanAllF cfg td shf (cross ++ [.shadow (base ++ [i])])
                    (pp ++ [printSel (uniqueSelector root (base ++ [i]))]) [] 0 shf
                    (d + 2)).filter (fun r => decide (r.depth ≤ cfg.maxDepth)) = []) ∧
                (¬ cfg.maxDepth < d + 1 →
                  scanF cfg td shf (cross ++ [.shadow (base ++ [i])])
                    (pp ++ [printSel (uniqueSelector root (base ++ [i]))]) [] 0 shf (d + 2) =
                  (scanAllF cfg td shf (cross ++ [.shadow (base ++ [i])])
                    (pp ++ [printSel (uniqueSelector root (base ++ [i]))]) [] 0 shf
                    (d + 2)).filter (fun r => decide (r.depth ≤ cfg.maxDepth))) := by
              constructor
              · intro hcut2
                refine List.filter_eq_nil_iff.mpr (fun r hr => ?_)
                have hd := scanAll_depth_le (sizeF shf) shf cfg td shf
                  (cross ++ [.shadow (base ++ [i])])
                  (pp ++ [printSel (uniqueSelector root (base ++ [i]))]) [] 0 (d + 2)
                  (Nat.le_refl _) r hr
                simp only [decide_eq_true_eq]
                omega
              · intro hcut2
                refine ih shf cfg td shf (cross ++ [.shadow (base ++ [i])])
                  (pp ++ [printSel (uniqueSelector root (base ++ [i]))]) [] 0 (d + 2) ?_
                have hso : sizeO (OptForest.some shf) = 1 + sizeF shf := by simp [sizeO]
                omega
            cases fr with
            | none =>
              by_cases hcut2 : cfg.maxDepth < d + 1
              · simp [scanE.eq_def, scanAllE.eq_def, List.filter_append, hcut, hcut2, hdm,
                  hch, hshprep.1 hcut2,
                  apply_ite (List.filter (fun r : FieldRec => decide (r.depth ≤ cfg.maxDepth)))]
              · simp [scanE.eq_def, scanAllE.eq_def, List.filter_append, hcut, hcut2, hdm,
                  hch, hshprep.2 hcut2,
                  apply_ite (List.filter (fun r : FieldRec => decide (r.depth ≤ cfg.maxDepth)))]
            | some fd =>
              have hfrprep :
                  (cfg.maxDepth < d + 1 →
                    (scanAllF cfg td fd (cross ++ [.frame (base ++ [i])])
                      (pp ++ [printSel (uniqueSelector root (base ++ [i]))]) [] 0 fd
                      (d + 2)).filter (fun r => decide (r.depth ≤ cfg.maxDepth)) = []) ∧
                  (¬ cfg.maxDepth < d + 1 →
                    scanF cfg td fd (cross ++ [.frame (base ++ [i])])
                      (pp ++ [printSel (uniqueSelector root (base ++ [i]))]) [] 0 fd (d + 2) =
                    (scanAllF cfg td fd (cross ++ [.frame (base ++ [i])])
                      (pp ++ [printSel (uniqueSelector root (base ++ [i]))]) [] 0 fd
                      (d + 2)).filter (fun r => decide (r.depth ≤ cfg.maxDepth))) := by
                constructor
                · intro hcut2
                  refine List.filter_eq_nil_iff.mpr (fun r hr => ?_)
                  have hd := scanAll_depth_le (sizeF fd) fd cfg td fd
                    (cross ++ [.frame (base ++ [i])])
                    (pp ++ [printSel (uniqueSelector root (base ++ [i]))]) [] 0 (d + 2)
                    (Nat.le_refl _) r hr
                  simp only [decide_eq_true_eq]
                  omega
                · intro hcut2
                  refine ih fd cfg td fd (cross ++ [.frame (base ++ [i])])
                    (pp ++ [printSel (uniqueSelector root (base ++ [i]))]) [] 0 (d + 2) ?_
                  have hso : sizeO (OptForest.some fd) = 1 + sizeF fd := by simp [sizeO]
                  omega
              by_cases hcut2 : cfg.maxDepth < d + 1
              · simp [scanE.eq_def, scanAllE.eq_def, List.filter_append, hcut, hcut2, hdm,
                  hch, hshprep.1 hcut2, hfrprep.1 hcut2,
                  apply_ite (List.filter (fun r : FieldRec => decide (r.depth ≤ cfg.maxDepth)))]
              · simp [scanE.eq_def, scanAllE.eq_def, List.filter_append, hcut, hcut2, hdm,
                  hch, hshprep.2 hcut2, hfrprep.2 hcut2,
                  apply_ite (List.filter (fun r : FieldRec => decide (r.depth ≤ cfg.maxDepth)))]

/-- Each record's depth is determined by its address: one unit per
child-index step plus one extra unit per boundary root. -/
theorem scanAll_depth_formula (n : Nat) :
    ∀ es cfg td root cross pp base i d, sizeF es ≤ n →
      d = crossWeight cross + base.length + 1 →
      ∀ r ∈ scanAllF cfg td root cross pp base i es d,
        r.depth = crossWeight r.addr.1 + r.addr.2.length := by
  induction n with
  | zero =>
    intro es cfg td root cross pp base i d hs hinv r hr
    cases es with
    | nil => simp [scanAllF] at hr
    | cons e rest => simp [sizeF] at hs
  | succ n ih =>
    intro es cfg td root cross pp base i d hs hinv r hr
    cases es with
    | nil => simp [scanAllF] at hr
    | cons e rest =>
      have hsz : 1 + sizeE e + sizeF rest ≤ n + 1 := by
        simpa [sizeF] using hs
      rw [scanAllF] at hr
      rcases List.mem_append.mp hr with hE | hF
      · cases e with
        | node dd ch sh fr =>
          have hsizes : 1 + sizeF ch + sizeO sh + sizeO fr ≤ n := by
            have hse : sizeE (.node dd ch sh fr) = 1 + sizeF ch + sizeO sh + sizeO fr := by
              simp [sizeE]
            omega
          rw [scanAllE.eq_def] at hE
          rcases List.mem_append.mp hE with hE1 | hD
          · rcases List.mem_append.mp hE1 with hE2 | hC
            · rcases List.mem_append.mp hE2 with hA | hB
              · rcases (mem_ite_nil _ _ _).mp hA with ⟨hfill, hA2⟩
                simp at hA2
                subst hA2
                simp only [List.length_append, List.length_cons, List.length_nil]
                omega
              · cases sh with
                | none => simp at hB
                | some shf =>
                  simp only at hB
                  rcases (mem_ite_nil _ _ _).mp hB with ⟨hinc, hB2⟩
                  have hshf : sizeF shf ≤ n := by
                    have hso : sizeO (OptForest.some shf) = 1 + sizeF shf := by
                      simp [sizeO]
                    omega
                  refine ih shf cfg td shf (cross ++ [.shadow (base ++ [i])])
                    (pp ++ [printSel (uniqueSelector root (base ++ [i]))]) [] 0 (d + 2)
                    hshf ?_ r hB2
                  rw [crossWeight_append]
                  simp only [List.length_append, List.length_cons, List.length_nil]
                  omega
            · cases fr with
              | none => simp at hC
              | some fd =>
                simp only at hC
                rcases (mem_ite_nil _ _ _).mp hC with ⟨hfr2, hC2⟩
                have hfd : sizeF fd ≤ n := by
                  have hso : sizeO (OptForest.some fd) = 1 + sizeF fd := by
                    simp [sizeO]
                  omega
                refine ih fd cfg td fd (cross ++ [.frame (base ++ [i])])
                  (pp ++ [printSel (uniqueSelector root (base ++ [i]))]) [] 0 (d + 2)
                  hfd ?_ r hC2
                rw [crossWeight_append]
                simp only [List.length_append, List.length_cons, List.length_nil]
                omega
          · refine ih ch cfg td root cross pp (base ++ [i]) 0 (d + 1) (by omega) ?_ r hD
            simp only [List.length_append, List.length_cons, List.length_nil]
            omega
      · exact ih rest cfg td root cross pp base (i + 1) d (by omega) hinv r hF

/-- C3 (the claim fails on the code): `topInputDoc` holds one
fillable field directly in the top document, yet a scan with
`maxDepth = 0` returns nothing, because the bound is consumed by
ordinary DOM descent (the field sits at traversal depth 3, one unit
per tree level below the document node). -/
theorem maxDepth_zero_scans_nothing :
    scanDOM { maxDepth := 0 } topInputDoc = [] ∧
    (scanDOM {} topInputDoc).map (fun r => (r.addr, r.depth, r.info.tag)) =
      [(([], [0, 0, 0]), 3, "input")] := by
  refine ⟨?_, ?_⟩ <;> decide

/-- C3 amended: the scan with bound `maxDepth` returns exactly the
fields of the unbounded scan whose traversal depth is at most
`maxDepth`, in the same order, where a field's depth counts one unit
per child step from the document node and one extra unit per entered
shadow or iframe root (`crossWeight`), not one unit per boundary
crossing alone. -/
theorem scanDOM_depth_characterization (cfg : ScanOptions) (doc : Ctx) :
    scanDOM cfg doc =
      (scanAllFields cfg doc).filter (fun r => r.depth ≤ cfg.maxDepth) ∧
    ∀ r ∈ scanAllFields cfg doc,
      r.depth = crossWeight r.addr.1 + r.addr.2.length := by
  constructor
  · exact scan_eq_filter (sizeF doc) doc cfg doc doc [] [] [] 0 1 (Nat.le_refl _)
  · intro r hr
    exact scanAll_depth_formula (sizeF doc) doc cfg doc doc [] [] [] 0 1
      (Nat.le_refl _) (by simp [crossWeight]) r hr

/-- Witness: the characterization evaluated on `topInputDoc`. -/
theorem scanDOM_depth_characterization_witness :
    scanDOM {} topInputDoc =
      (scanAllFields {} topInputDoc).filter
        (fun r => r.depth ≤ ({} : ScanOptions).maxDepth) ∧
    (⟨(([], [0, 0, 0]) : Addr), 3,
      { selector := "body > input", tag := "input", type := "input",
        nameAttr := Option.none, label := Option.none }⟩ : FieldRec).depth =
      crossWeight ([] : List Crossing) + ([0, 0, 0] : Path).length :=
  ⟨(scanDOM_depth_characterization {} topInputDoc).1,
   (scanDOM_depth_characterization {} topInputDoc).2 _ (by decide)⟩

/-! ### C4: the resolver's final-step behaviour -/

/-- Comparison definition for the resolver analysis: the boundary
chain replay of `_resolveElement` in isolation, returning the final
query context it reaches (or none when a hop returns null for the
whole resolution, or an error when a stored hop selector is
invalid). -/
def chainContext :
    List Hop → (List Crossing × Ctx) → Option (List Crossing × Ctx) →
    Except Unit (Option (List Crossing × Ctx))
  | [], _, ctx => .ok ctx
  | .idx n :: rest, win, _ =>
    match (queryAll win.2 [iframeCompound]).get? n with
    | Option.none => .ok Option.none
    | Option.some ip =>
      match getAt win.2 ip with
      | Option.none => .ok Option.none
      | Option.some e =>
        match e.frameO with
        | .none => .ok Option.none
        | .some fd =>
          chainContext rest (win.1 ++ [.frame ip], fd)
            (Option.some (win.1 ++ [.frame ip], fd))
  | .sel s :: rest, win, ctx =>
    match ctx with
    | Option.none => chainContext rest win Option.none
    | Option.some (cr, c) =>
      match parseSel s with
      | Option.none => .error ()
      | Option.some hopSel =>
        match queryOne c hopSel with
        | Option.none => chainContext rest win Option.none
        | Option.some hp =>
          match getAt c hp with
          | Option.none => chainContext rest win Option.none
          | Option.some host =>
            match host.shadowO with
            | .some sh => chainContext rest win (Option.some (cr ++ [.shadow hp], sh))
            | .none => chainContext rest win Option.none

theorem resolveHops_final (selStr : String) (sel : Sel)
    (hsel : parseSel selStr = Option.some sel) :
    ∀ (hops : List Hop) (win : List Crossing × Ctx)
      (ctx : Option (List Crossing × Ctx)) (cr : List Crossing) (c : Ctx),
      chainContext hops win ctx = .ok (Option.some (cr, c)) →
      resolveHops selStr hops win ctx =
        .ok ((queryAll c sel).head?.map (fun p => (cr, p))) := by
  intro hops
  induction hops with
  | nil =>
    intro win ctx cr c hchain
    rw [chainContext] at hchain
    cases ctx with
    | none => simp at hchain
    | some wc =>
      simp at hchain
      subst hchain
      rw [resolveHops, hsel]
      rfl
  | cons hop rest ih =>
    intro win ctx cr c hchain
    cases hop with
    | idx n =>
      rw [chainContext] at hchain
      rw [resolveHops]
      cases hip : (queryAll win.2 [iframeCompound]).get? n with
      | none =>
        simp only [hip] at hchain
        simp at hchain
      | some ip =>
        simp only [hip] at hchain
        cases hel : getAt win.2 ip with
        | none =>
          simp only [hel] at hchain
          simp at hchain
        | some e =>
          simp only [hel] at hchain
          cases hfr : e.frameO with
          | none =>
            simp only [hfr] at hchain
            simp at hchain
          | some fd =>
            simp only [hfr] at hchain
            simp only [hip, hel, hfr]
            exact ih _ _ cr c hchain
    | sel s =>
      rw [chainContext.eq_def] at hchain
      rw [resolveHops.eq_def]
      cases ctx with
      | none => exact ih _ _ cr c hchain
      | some wc =>
        rcases wc with ⟨cr0, c0⟩
        cases hps : parseSel s with
        | none =>
          simp only [hps] at hchain
          simp at hchain
        | some hopSel =>
          simp only [hps] at hchain
          simp only [hps]
          cases hq : queryOne c0 hopSel with
          | none =>
            simp only [hq] at hchain
            simp only [hq]
            exact ih _ _ cr c hchain
          | some hp =>
            simp only [hq] at hchain
            simp only [hq]
            cases hh : getAt c0 hp with
            | none =>
              simp only [hh] at hchain
              simp only [hh]
              exact ih _ _ cr c hchain
            | some host =>
              simp only [hh] at hchain
              simp only [hh]
              cases hsh : host.shadowO with
              | none =>
                simp only [hsh] at hchain
                simp only [hsh]
                exact ih _ _ cr c hchain
              | some sh =>
                simp only [hsh] at hchain
                simp only [hsh]
                exact ih _ _ cr c hchain

/-- C4 (the claim fails on the code): with a selector matching two
nodes, `_resolveElement` returns the first match in document order —
an arbitrary pick of several matches — rather than a typed
`Ambiguous` outcome; its only signal for zero matches is null, not a
`NotFound` variant. -/
theorem resolveElement_picks_first_of_two :
    queryAll pairInputDoc [{ tag := Option.some "input" }] = [[0, 0, 0], [0, 0, 1]] ∧
    resolveElement pairInputDoc { selector := "input", framePath := [] } =
      .ok (Option.some ([], [0, 0, 0])) := by
  refine ⟨?_, ?_⟩ <;> decide

/-- C4 amended: whenever the boundary chain resolves to a final
context, the resolver returns `querySelector`'s answer there — null
for zero matches and the first match in document order otherwise; it
produces no distinct NotFound/Ambiguous outcomes. -/
theorem resolveElement_first_match (doc : Ctx) (map : FieldMapping)
    (cr : List Crossing) (c : Ctx) (sel : Sel)
    (hchain : chainContext map.framePath ([], doc) (Option.some ([], doc)) =
      .ok (Option.some (cr, c)))
    (hsel : parseSel map.selector = Option.some sel) :
    resolveElement doc map =
      .ok ((queryAll c sel).head?.map (fun p => (cr, p))) :=
  resolveHops_final map.selector sel hsel map.framePath ([], doc)
    (Option.some ([], doc)) cr c hchain

/-- Witness: the amended statement evaluated on a document with two
matching inputs. -/
theorem resolveElement_first_match_witness :
    resolveElement pairInputDoc { selector := "input", framePath := [] } =
      .ok ((queryAll pairInputDoc [{ tag := Option.some "input" }]).head?.map
        (fun p => (([] : List Crossing), p))) :=
  resolveElement_first_match pairInputDoc { selector := "input", framePath := [] }
    [] pairInputDoc [{ tag := Option.some "input" }] rfl (by decide)

/-! ### C5 and C8: deep-query totality and boundary handling -/

/-- A valid boundary in the sense of the deep-query hop: an accessible
same-origin iframe or a shadow host. -/
def isBoundary (e : Elem) : Bool :=
  (match e.frameO with
   | .some _ => e.data.tag = "iframe"
   | .none => false) ||
  (match e.shadowO with
   | .some _ => true
   | .none => false)

theorem deepLoop_cons_cons (ctxs : List (List Crossing × Ctx)) (part r2 : String)
    (rest2 : List String) (sel : Sel) (hsel : parseSel part = Option.some sel) :
    deepLoop ctxs (part :: r2 :: rest2) =
      if (hopStep ctxs sel).isEmpty then .ok []
      else deepLoop (hopStep ctxs sel) (r2 :: rest2) := by
  conv_lhs => unfold deepLoop
  rw [hsel]

theorem deepLoop_single (ctxs : List (List Crossing × Ctx)) (part : String)
    (sel : Sel) (hsel : parseSel part = Option.some sel) :
    deepLoop ctxs [part] =
      .ok (ctxs.flatMap (fun c => (queryAll c.2 sel).map (fun p => (c.1, p)))) := by
  conv_lhs => unfold deepLoop
  rw [hsel]

/-- The fragment loop never throws when every fragment it can reach is
a valid selector. -/
theorem deepLoop_ok :
    ∀ (parts : List String) (ctxs : List (List Crossing × Ctx)),
      (∀ f ∈ parts, (parseSel f).isSome) →
      ∃ res, deepLoop ctxs parts = .ok res := by
  intro parts
  induction parts with
  | nil =>
    intro ctxs _
    exact ⟨[], rfl⟩
  | cons part rest ih =>
    intro ctxs hvalid
    have hp : (parseSel part).isSome := hvalid part (by simp)
    rcases Option.isSome_iff_exists.mp hp with ⟨sel, hsel⟩
    cases rest with
    | nil =>
      rw [deepLoop_single ctxs part sel hsel]
      exact ⟨_, rfl⟩
    | cons r2 rest2 =>
      rw [deepLoop_cons_cons ctxs part r2 rest2 sel hsel]
      by_cases hstep : (hopStep ctxs sel).isEmpty
      · rw [if_pos hstep]
        exact ⟨[], rfl⟩
      · rw [if_neg hstep]
        exact ih (hopStep ctxs sel) (fun f hf => hvalid f (by simp [hf]))

/-- C5 (the claim fails on the code): against `hostDoc` the deep
query `body > div >>> ((` reaches its second fragment (the shadow
host survives the first hop) and `querySelectorAll` throws a
SyntaxError on the invalid fragment — queryDeepAll does not return a
list for every string. -/
theorem queryDeepAll_throws_on_invalid_fragment :
    queryDeepAll hostDoc "body > div >>> ((" = .error () := by
  decide

/-- C5 amended: for every deep-query string whose fragments are valid
selectors, evaluation never throws; a candidate at an intermediate hop
contributes nothing exactly when it is neither an accessible
same-origin iframe nor a shadow host (it is dropped silently); and an
intermediate hop at which no boundary survives makes the whole query
return the empty list rather than an error. -/
theorem queryDeepAll_boundary_behaviour :
    (∀ (doc : Ctx) (s : String),
      (∀ f ∈ deepParts s, (parseSel f).isSome) →
      ∃ res, queryDeepAll doc s = .ok res) ∧
    (∀ (cross : List Crossing) (ctx : Ctx) (p : Path) (e : Elem),
      getAt ctx p = Option.some e →
      ((boundaryCtx cross ctx p).isNone ↔ isBoundary e = false)) ∧
    (∀ (ctxs : List (List Crossing × Ctx)) (part r2 : String) (rest2 : List String)
      (sel : Sel), parseSel part = Option.some sel →
      hopStep ctxs sel = [] →
      deepLoop ctxs (part :: r2 :: rest2) = .ok []) := by
  refine ⟨?_, ?_, ?_⟩
  · intro doc s hvalid
    rw [queryDeepAll]
    by_cases hdp : deepParts s = []
    · rw [if_pos hdp]
      exact ⟨[], rfl⟩
    · rw [if_neg hdp]
      exact deepLoop_ok (deepParts s) [([], doc)] hvalid
  · intro cross ctx p e hget
    cases hfr : e.frameO with
    | some fd =>
      by_cases htag : e.data.tag = "iframe"
      · simp [boundaryCtx, isBoundary, hget, hfr, htag]
      · cases hsh : e.shadowO with
        | some sh => simp [boundaryCtx, isBoundary, hget, hfr, hsh, htag]
        | none => simp [boundaryCtx, isBoundary, hget, hfr, hsh, htag]
    | none =>
      cases hsh : e.shadowO with
      | some sh => simp [boundaryCtx, isBoundary, hget, hfr, hsh]
      | none => simp [boundaryCtx, isBoundary, hget, hfr, hsh]
  · intro ctxs part r2 rest2 sel hsel hstep
    rw [deepLoop_cons_cons ctxs part r2 rest2 sel hsel, hstep]
    rfl

/-- Witness: the three conjuncts evaluated on concrete inputs. -/
theorem queryDeepAll_boundary_behaviour_witness :
    (∃ res, queryDeepAll hostDoc "body > div >>> input" = .ok res) ∧
    ((boundaryCtx [] hostDoc [0, 0]).isNone ↔ isBoundary
      (.node { tag := "body" } (forestOf [shadowHostEl]) .none .none) = false) ∧
    deepLoop [([], hostDoc)] ["span", "input"] = .ok [] :=
  ⟨queryDeepAll_boundary_behaviour.1 hostDoc "body > div >>> input" (by decide),
   queryDeepAll_boundary_behaviour.2.1 [] hostDoc [0, 0] _ rfl,
   queryDeepAll_boundary_behaviour.2.2 [([], hostDoc)] "span" "input" []
     [{ tag := Option.some "span" }] (by decide) rfl⟩

/-- C8 (the claim fails on the code): `queryDeepAll` is not total on
strings — the single fragment `###` is not a valid selector, so
`querySelectorAll` throws on it. -/
theorem queryDeepAll_not_total :
    queryDeepAll topInputDoc "###" = .error () := by
  decide

/-- C8 amended: `queryDeepAll` returns a (possibly empty) list for
every input string whose fragments (after splitting on the delimiter
and trimming) are valid selectors; in particular an input consisting
only of delimiters and whitespace has no nonempty fragment left and
returns the empty list without evaluating any selector. -/
theorem queryDeepAll_total_on_valid :
    (∀ (doc : Ctx) (s : String),
      (∀ f ∈ deepParts s, (parseSel f).isSome) →
      (queryDeepAll doc s).isOk = true) ∧
    (∀ (doc : Ctx) (s : String),
      (∀ f ∈ splitDeep s, strTrim f = "") →
      queryDeepAll doc s = .ok []) := by
  constructor
  · intro doc s hvalid
    rw [queryDeepAll]
    by_cases hdp : deepParts s = []
    · rw [if_pos hdp]
      rfl
    · rw [if_neg hdp]
      rcases deepLoop_ok (deepParts s) [([], doc)] hvalid with ⟨res, hres⟩
      rw [hres]
      rfl
  · intro doc s hempty
    have hdp : deepParts s = [] := by
      refine List.filter_eq_nil_iff.mpr (fun f hf => ?_)
      rcases List.mem_map.mp hf with ⟨g, hg, hfg⟩
      simp [← hfg, hempty g hg]
    rw [queryDeepAll, if_pos hdp]

/-- Witness: totality and the delimiter-only case on concrete
inputs. -/
theorem queryDeepAll_total_on_valid_witness :
    (queryDeepAll topInputDoc "body > input").isOk = true ∧
    queryDeepAll topInputDoc "  >>> >>> " = .ok [] :=
  ⟨queryDeepAll_total_on_valid.1 topInputDoc "body > input" (by decide),
   queryDeepAll_total_on_valid.2 topInputDoc "  >>> >>> " (by decide)⟩

/-! ### C6: the mutation debounce -/

theorem getLastD_cons_shift (a b : Nat) (l : List Nat) :
    (b :: l).getLastD a = l.getLastD b := by
  cases l <;> simp [List.getLastD]

/-- A pending timer armed 300ms after `t0` never fires inside a burst
whose gaps stay under 300ms; the single scan lands 300ms after the
last mutation. -/
theorem debounce_burst :
    ∀ (ms : List Nat) (t0 : Nat),
      List.Chain' (fun a b => a < b ∧ b < a + 300) (t0 :: ms) →
      debounceLoop ms (Option.some (t0 + 300)) = [ms.getLastD t0 + 300] := by
  intro ms
  induction ms with
  | nil =>
    intro t0 _
    rfl
  | cons t1 rest ih =>
    intro t0 hchain
    rcases List.chain'_cons.mp hchain with ⟨⟨_, hlt⟩, hchain2⟩
    rw [debounceLoop, if_neg (by omega)]
    rw [ih t1 hchain2, getLastD_cons_shift]

/-- A mutation arriving at or after the burst's scan time re-arms the
timer and produces exactly one follow-up scan. -/
theorem debounce_burst_late :
    ∀ (ms : List Nat) (t0 u : Nat),
      List.Chain' (fun a b => a < b ∧ b < a + 300) (t0 :: ms) →
      ms.getLastD t0 + 300 ≤ u →
      debounceLoop (ms ++ [u]) (Option.some (t0 + 300)) =
        [ms.getLastD t0 + 300, u + 300] := by
  intro ms
  induction ms with
  | nil =>
    intro t0 u _ hu
    simp only [List.getLastD] at hu ⊢
    rw [List.nil_append, debounceLoop, if_pos hu]
    rfl
  | cons t1 rest ih =>
    intro t0 u hchain hu
    rcases List.chain'_cons.mp hchain with ⟨⟨_, hlt⟩, hchain2⟩
    rw [List.cons_append, debounceLoop, if_neg (by omega)]
    rw [getLastD_cons_shift] at hu ⊢
    exact ih t1 u hchain2 hu

/-- C6: in the event-loop embedding of `observeMutations`, a burst of
N ≥ 1 mutation callbacks whose consecutive gaps are under the 300ms
quiet window triggers exactly one rescan, 300ms after the last
mutation; and a further mutation at or after that scan time (the scan
itself is synchronous, so a mutation observed while it runs is
delivered right after it) causes exactly one follow-up rescan, 300ms
after it — neither dropped nor duplicated. -/
theorem debounce_single_rescan :
    (∀ (t0 : Nat) (rest : List Nat),
      List.Chain' (fun a b => a < b ∧ b < a + 300) (t0 :: rest) →
      runDebounce (t0 :: rest) = [(t0 :: rest).getLastD 0 + 300]) ∧
    (∀ (t0 : Nat) (rest : List Nat) (u : Nat),
      List.Chain' (fun a b => a < b ∧ b < a + 300) (t0 :: rest) →
      (t0 :: rest).getLastD 0 + 300 ≤ u →
      runDebounce ((t0 :: rest) ++ [u]) =
        [(t0 :: rest).getLastD 0 + 300, u + 300]) := by
  constructor
  · intro t0 rest hchain
    rw [runDebounce, debounceLoop, debounce_burst rest t0 hchain, getLastD_cons_shift]
  · intro t0 rest u hchain hu
    rw [getLastD_cons_shift] at hu
    rw [runDebounce, List.cons_append, debounceLoop,
      debounce_burst_late rest t0 u hchain hu, getLastD_cons_shift]

/-- Witness: a three-mutation burst and a late fourth mutation. -/
theorem debounce_single_rescan_witness :
    runDebounce [0, 100, 250] = [550] ∧
    runDebounce [0, 100, 250, 600] = [550, 900] :=
  ⟨debounce_single_rescan.1 0 [100, 250]
     (List.chain'_cons.mpr ⟨⟨by omega, by omega⟩,
       List.chain'_cons.mpr ⟨⟨by omega, by omega⟩, List.chain'_singleton _⟩⟩),
   debounce_single_rescan.2 0 [100, 250] 600
     (List.chain'_cons.mpr ⟨⟨by omega, by omega⟩,
       List.chain'_cons.mpr ⟨⟨by omega, by omega⟩, List.chain'_singleton _⟩⟩)
     (by decide)⟩

/-! ### C9: generateMapping -/

theorem orElse_none {A : Type} (x : Option A) :
    (x.orElse fun _ => Option.none) = x := by
  cases x <;> rfl

theorem objGet_objSet (m : List (String × String)) (k k2 v : String) :
    objGet (objSet m k v) k2 = if k = k2 then Option.some v else objGet m k2 := by
  induction m with
  | nil => simp [objSet, objGet]
  | cons kv rest ih =>
    rcases kv with ⟨k1, v1⟩
    by_cases h1 : k1 = k
    · subst h1
      by_cases h2 : k1 = k2 <;> simp [objSet, objGet, h2]
    · by_cases h2 : k1 = k2
      · subst h2
        have hk : ¬ k = k1 := fun h => h1 h.symm
        simp [objSet, objGet, h1, hk]
      · simp [objSet, objGet, h1, h2, ih]

theorem foldl_objSet_get (pairs : List (String × String)) :
    ∀ (m0 : List (String × String)) (k : String),
      objGet (pairs.foldl (fun m fc => objSet m fc.1 fc.2) m0) k =
        ((pairs.reverse.find? (fun fc => fc.1 = k)).map (fun fc => fc.2)).orElse
          (fun _ => objGet m0 k) := by
  induction pairs with
  | nil => simp
  | cons fc rest ih =>
    intro m0 k
    rw [List.foldl_cons, ih (objSet m0 fc.1 fc.2) k]
    rw [List.reverse_cons, List.find?_append, objGet_objSet]
    rcases hfind : rest.reverse.find? (fun fc => fc.1 = k) with _ | x
    · by_cases hk : fc.1 = k <;> simp [Option.orElse, hfind, List.find?, hk]
    · simp [Option.orElse, hfind]

/-- C9: `generateMapping` throws exactly when the two lists have
different lengths; with equal lengths it succeeds and the resulting
object maps each selector to the column of the last field carrying
that selector — `fields[i].selector` is assigned `columns[i]`, later
entries overwriting earlier ones.  (The embedding is pure, so the
inputs are left unchanged by construction.) -/
theorem generateMapping_spec :
    (∀ (fields : List MFieldInfo) (columns : List String),
      (∃ m, generateMapping fields columns = .ok m) ↔
        fields.length = columns.length) ∧
    (∀ (fields : List MFieldInfo) (columns : List String) (m : List (String × String)),
      generateMapping fields columns = .ok m →
      ∀ sel, objGet m sel =
        (((fields.map (fun f => f.selector)).zip columns).reverse.find?
          (fun fc => fc.1 = sel)).map (fun fc => fc.2)) := by
  constructor
  · intro fields columns
    constructor
    · rintro ⟨m, hm⟩
      by_cases hlen : fields.length = columns.length
      · exact hlen
      · rw [generateMapping, if_pos hlen] at hm
        cases hm
    · intro hlen
      rw [generateMapping, if_neg (by omega)]
      exact ⟨_, rfl⟩
  · intro fields columns m hm sel
    have hlen : ¬ fields.length ≠ columns.length := by
      intro hne
      rw [generateMapping, if_pos hne] at hm
      cases hm
    rw [generateMapping, if_neg hlen] at hm
    injection hm with hm2
    subst hm2
    rw [foldl_objSet_get]
    exact orElse_none _

/-- Witness: a length mismatch error, and the overwrite behaviour on
duplicate selectors. -/
theorem generateMapping_spec_witness :
    (∃ m, generateMapping
      [{ selector := "a" }, { selector := "b" }, { selector := "a" }]
      ["X", "Y", "Z"] = .ok m) ∧
    objGet [("a", "Z"), ("b", "Y")] "a" =
      ((((([{ selector := "a" }, { selector := "b" }, { selector := "a" }] :
          List MFieldInfo).map (fun f => f.selector)).zip
          ["X", "Y", "Z"]).reverse.find? (fun fc => fc.1 = "a")).map
        (fun fc => fc.2)) :=
  ⟨(generateMapping_spec.1 _ _).mpr (by decide),
   generateMapping_spec.2
     [{ selector := "a" }, { selector := "b" }, { selector := "a" }]
     ["X", "Y", "Z"] [("a", "Z"), ("b", "Y")] (by decide) "a"⟩

/-! ### C10: autoMap -/

theorem mem_objSet (m : List (String × String)) (k v : String)
    (pr : String × String) (h : pr ∈ objSet m k v) : pr = (k, v) ∨ pr ∈ m := by
  induction m with
  | nil =>
    simp [objSet] at h
    exact Or.inl h
  | cons kv rest ih =>
    rcases kv with ⟨k1, v1⟩
    by_cases h1 : k1 = k
    · subst h1
      simp only [objSet, if_pos rfl] at h
      rcases List.mem_cons.mp h with h2 | h2
      · exact Or.inl h2
      · exact Or.inr (List.mem_cons.mpr (Or.inr h2))
    · simp only [objSet, if_neg h1] at h
      rcases List.mem_cons.mp h with h2 | h2
      · exact Or.inr (List.mem_cons.mpr (Or.inl h2))
      · rcases ih h2 with h3 | h3
        · exact Or.inl h3
        · exact Or.inr (List.mem_cons.mpr (Or.inr h3))

theorem objSet_values_nodup (m : List (String × String)) (k v : String)
    (hv : v ∉ m.map (fun pr => pr.2)) (hnd : (m.map (fun pr => pr.2)).Nodup) :
    ((objSet m k v).map (fun pr => pr.2)).Nodup := by
  induction m with
  | nil => simp [objSet]
  | cons kv rest ih =>
    rcases kv with ⟨k1, v1⟩
    rw [List.map_cons] at hv hnd
    have hv1 : v1 ≠ v := fun h => hv (h ▸ List.mem_cons_self _ _)
    have hv2 : v ∉ rest.map (fun pr => pr.2) :=
      fun h => hv (List.mem_cons_of_mem _ h)
    rw [List.nodup_cons] at hnd
    by_cases h1 : k1 = k
    · subst h1
      have hstep : objSet ((k1, v1) :: rest) k1 v = (k1, v) :: rest := by
        simp [objSet]
      rw [hstep, List.map_cons, List.nodup_cons]
      exact ⟨hv2, hnd.2⟩
    · simp only [objSet, if_neg h1, List.map_cons, List.nodup_cons]
      refine ⟨?_, ih hv2 hnd.2⟩
      intro hmem
      rcases List.mem_map.mp hmem with ⟨pr, hpr, hpr2⟩
      rcases mem_objSet rest k v pr hpr with h2 | h2
      · subst h2
        exact hv1 hpr2.symm
      · exact hnd.1 (List.mem_map.mpr ⟨pr, h2, hpr2⟩)

/-- What a successful `bestHeader` result guarantees: a real index, an
unused header, and the score of that header against the field
tokens. -/
theorem bestHeader_post (headers : List String) (headerTokens : List (List String))
    (used : List String) (ftoks : List String) (i : Nat) (sc : Score)
    (h : bestHeader headers headerTokens used ftoks = (Option.some i, sc)) :
    i < headers.length ∧ headers.getD i "" ∉ used ∧
      sc = jaccard ftoks (headerTokens.getD i []) := by
  have key : ∀ (l : List Nat) (b : Option Nat × Score),
      (∀ j ∈ l, j < headers.length) →
      (∀ j, b.1 = Option.some j → j < headers.length ∧ headers.getD j "" ∉ used ∧
        b.2 = jaccard ftoks (headerTokens.getD j [])) →
      ∀ j, (l.foldl
        (fun b i =>
          if used.contains (headers.getD i "") then b
          else
            let score := jaccard ftoks (headerTokens.getD i [])
            if scoreLt b.2 score then (Option.some i, score) else b) b).1 =
          Option.some j →
        j < headers.length ∧ headers.getD j "" ∉ used ∧
        (l.foldl
          (fun b i =>
            if used.contains (headers.getD i "") then b
            else
              let score := jaccard ftoks (headerTokens.getD i [])
              if scoreLt b.2 score then (Option.some i, score) else b) b).2 =
          jaccard ftoks (headerTokens.getD j []) := by
    intro l
    induction l with
    | nil =>
      intro b _ hb j hj
      exact hb j hj
    | cons x rest ih =>
      intro b hl hb j
      rw [List.foldl_cons]
      refine ih _ (fun j2 hj2 => hl j2 (by simp [hj2])) ?_ j
      intro j2 hj2
      by_cases hused : used.contains (headers.getD x "")
      · rw [if_pos hused] at hj2 ⊢
        exact hb j2 hj2
      · rw [if_neg hused] at hj2 ⊢
        by_cases himp : scoreLt b.2 (jaccard ftoks (headerTokens.getD x []))
        · simp only [if_pos himp] at hj2 ⊢
          simp at hj2
          subst hj2
          refine ⟨hl x (by simp), ?_, rfl⟩
          intro hmem
          exact hused (List.elem_iff.mpr hmem)
        · simp only [if_neg himp] at hj2 ⊢
          exact hb j2 hj2
  rw [bestHeader] at h
  have hres := key (List.range headers.length) (Option.none, ⟨0, 1⟩)
    (fun j hj => List.mem_range.mp hj) (fun j hj => by simp at hj) i
    (by rw [h])
  refine ⟨hres.1, hres.2.1, ?_⟩
  have h2 := hres.2.2
  rw [h] at h2
  exact h2

theorem getD_map_dedup (headers : List String) (i : Nat)
    (hi : i < headers.length) :
    (headers.map (fun h => dedupF (tokenize h))).getD i [] =
      dedupF (tokenize (headers.getD i "")) := by
  have hi2 : i < (headers.map (fun h => dedupF (tokenize h))).length := by
    simpa using hi
  rw [List.getD_eq_getElem _ _ hi2, List.getD_eq_getElem _ _ hi,
    List.getElem_map]

/-- One `autoMap` iteration preserves the mapping invariant: values are
duplicate-free, every value is a used header, and every entry pairs a
field selector with a header scoring at least one fifth against that
field's text. -/
theorem autoMapStep_inv (headers : List String) (fields : List MFieldInfo)
    (st : List (String × String) × List String) (x : MFieldInfo)
    (hx : x ∈ fields)
    (hnd : (st.1.map (fun pr => pr.2)).Nodup)
    (hvals : ∀ pr ∈ st.1, pr.2 ∈ st.2)
    (hprop : ∀ pr ∈ st.1, pr.2 ∈ headers ∧ ∃ f ∈ fields, pr.1 = f.selector ∧
      scoreGeFifth (jaccard (dedupF (tokenize (fieldText f)))
        (dedupF (tokenize pr.2))) = true) :
    (((autoMapStep headers (headers.map (fun h => dedupF (tokenize h))) st
        x).1.map (fun pr => pr.2)).Nodup) ∧
    (∀ pr ∈ (autoMapStep headers (headers.map (fun h => dedupF (tokenize h)))
        st x).1,
      pr.2 ∈ (autoMapStep headers (headers.map (fun h => dedupF (tokenize h)))
        st x).2) ∧
    (∀ pr ∈ (autoMapStep headers (headers.map (fun h => dedupF (tokenize h)))
        st x).1,
      pr.2 ∈ headers ∧ ∃ f ∈ fields, pr.1 = f.selector ∧
      scoreGeFifth (jaccard (dedupF (tokenize (fieldText f)))
        (dedupF (tokenize pr.2))) = true) := by
  by_cases hft : fieldText x = ""
  · have hstep : autoMapStep headers
        (headers.map (fun h => dedupF (tokenize h))) st x = st := by
      simp [autoMapStep, hft]
    rw [hstep]
    exact ⟨hnd, hvals, hprop⟩
  · rcases hbest : bestHeader headers (headers.map (fun h => dedupF (tokenize h)))
      st.2 (dedupF (tokenize (fieldText x))) with ⟨oi, sc⟩
    cases oi with
    | none =>
      have hstep : autoMapStep headers
          (headers.map (fun h => dedupF (tokenize h))) st x = st := by
        simp [autoMapStep, hft, hbest]
      rw [hstep]
      exact ⟨hnd, hvals, hprop⟩
    | some i =>
      obtain ⟨hi, hunused, hsc⟩ :=
        bestHeader_post headers (headers.map (fun h => dedupF (tokenize h)))
          st.2 (dedupF (tokenize (fieldText x))) i sc hbest
      by_cases hge : scoreGeFifth sc = true
      · have hstep : autoMapStep headers
            (headers.map (fun h => dedupF (tokenize h))) st x =
            (objSet st.1 x.selector (headers.getD i ""),
              st.2 ++ [headers.getD i ""]) := by
          simp [autoMapStep, hft, hbest, hge]
        rw [hstep]
        have hnotval : headers.getD i "" ∉ st.1.map (fun pr => pr.2) := by
          intro hmem
          rcases List.mem_map.mp hmem with ⟨pr, hpr, hpr2⟩
          exact hunused (hpr2 ▸ hvals pr hpr)
        refine ⟨objSet_values_nodup st.1 x.selector _ hnotval hnd, ?_, ?_⟩
        · intro pr hpr
          rcases mem_objSet st.1 x.selector _ pr hpr with h2 | h2
          · subst h2
            exact List.mem_append_right _ (by simp)
          · exact List.mem_append_left _ (hvals pr h2)
        · intro pr hpr
          rcases mem_objSet st.1 x.selector _ pr hpr with h2 | h2
          · subst h2
            constructor
            · show headers.getD i "" ∈ headers
              rw [List.getD_eq_getElem _ _ hi]
              exact List.getElem_mem hi
            · refine ⟨x, hx, rfl, ?_⟩
              show scoreGeFifth (jaccard (dedupF (tokenize (fieldText x)))
                (dedupF (tokenize (headers.getD i "")))) = true
              rw [← getD_map_dedup headers i hi, ← hsc]
              exact hge
          · exact hprop pr h2
      · have hstep : autoMapStep headers
            (headers.map (fun h => dedupF (tokenize h))) st x = st := by
          simp [autoMapStep, hft, hbest, hge]
        rw [hstep]
        exact ⟨hnd, hvals, hprop⟩

theorem autoMap_foldl_inv (headers : List String) (fields : List MFieldInfo) :
    ∀ (l : List MFieldInfo) (st : List (String × String) × List String),
      (∀ f ∈ l, f ∈ fields) →
      (st.1.map (fun pr => pr.2)).Nodup →
      (∀ pr ∈ st.1, pr.2 ∈ st.2) →
      (∀ pr ∈ st.1, pr.2 ∈ headers ∧ ∃ f ∈ fields, pr.1 = f.selector ∧
        scoreGeFifth (jaccard (dedupF (tokenize (fieldText f)))
          (dedupF (tokenize pr.2))) = true) →
      (((l.foldl (autoMapStep headers (headers.map (fun h => dedupF (tokenize h))))
          st).1.map (fun pr => pr.2)).Nodup) ∧
      (∀ pr ∈ (l.foldl (autoMapStep headers
          (headers.map (fun h => dedupF (tokenize h)))) st).1,
        pr.2 ∈ headers ∧ ∃ f ∈ fields, pr.1 = f.selector ∧
        scoreGeFifth (jaccard (dedupF (tokenize (fieldText f)))
          (dedupF (tokenize pr.2))) = true) := by
  intro l
  induction l with
  | nil =>
    intro st _ hnd _ hprop
    exact ⟨hnd, hprop⟩
  | cons x rest ih =>
    intro st hsub hnd hvals hprop
    rw [List.foldl_cons]
    obtain ⟨h1, h2, h3⟩ := autoMapStep_inv headers fields st x
      (hsub x (List.mem_cons_self _ _)) hnd hvals hprop
    exact ih _ (fun f hf => hsub f (List.mem_cons_of_mem _ hf)) h1 h2 h3

/-- C10: for every list of fields and every list of headers, the mapping
returned by `autoMap` is injective on headers — no header appears as the
value of more than one selector — and every assigned value is one of the
given headers, paired with the selector of one of the given fields whose
label-or-name tokens score at least 0.2 Jaccard similarity against that
header's tokens. -/
theorem autoMap_spec (fields : List MFieldInfo) (headers : List String) :
    ((autoMap fields headers).map (fun pr => pr.2)).Nodup ∧
    ∀ pr ∈ autoMap fields headers, pr.2 ∈ headers ∧ ∃ f ∈ fields,
      pr.1 = f.selector ∧
      scoreGeFifth (jaccard (dedupF (tokenize (fieldText f)))
        (dedupF (tokenize pr.2))) = true := by
  have h := autoMap_foldl_inv headers fields fields ([], [])
    (fun _ hf => hf) (by simp) (by simp) (by simp)
  rw [autoMap]
  exact h

/-- Witness: on one field labelled "email address" and headers
["Email", "Phone"], `autoMap` assigns "Email" and the specification
instantiates at that entry. -/
theorem autoMap_spec_witness :
    ("s1", "Email") ∈ autoMap [emailField] ["Email", "Phone"] ∧
    ("Email" ∈ ["Email", "Phone"] ∧
      ∃ f ∈ [emailField], ("s1", "Email").1 = f.selector ∧
        scoreGeFifth (jaccard (dedupF (tokenize (fieldText f)))
          (dedupF (tokenize ("s1", "Email").2))) = true) :=
  ⟨by decide,
   (autoMap_spec [emailField] ["Email", "Phone"]).2 ("s1", "Email")
     (by decide)⟩

/-! ### C7: label rule precedence -/

/-- The first label element in document order whose `for` attribute
equals `i` — the id linkage, written out without the CSS machinery. -/
def firstLabelFor (doc : Ctx) (i : String) : Option Path :=
  ((allPaths doc).filter (fun q =>
    match getAt doc q with
    | Option.some l => l.data.tag = "label" && l.data.forAttr = i
    | Option.none => false)).head?

/-- The ancestor elements of the element at `p`, nearest first. -/
def ancestorElems (ctx : Ctx) (p : Path) : List Elem :=
  (List.range' 1 (p.length - 1)).reverse.filterMap (fun k => getAt ctx (p.take k))

/-- The preceding-sibling rule: an immediately preceding sibling label,
contributing its trimmed text. -/
def prevSiblingLabel (ctx : Ctx) (p : Path) : Option String :=
  match prevSibling ctx p with
  | Option.some prev =>
    if prev.data.tag = "label" then Option.some (strTrim (textContent prev))
    else Option.none
  | Option.none => Option.none

/-- The ancestor rule as part_007 implements it: the nearest enclosing
label ancestor decides, contributing its trimmed text when that text is
nonempty and nothing otherwise. -/
def nearestAncestorLabel (ctx : Ctx) (p : Path) : Option String :=
  ((ancestorElems ctx p).find? (fun a => a.data.tag = "label")).bind
    (fun a => strToOpt (strTrim (textContent a)))

/-- The id-linkage rule as contentscript.ts implements it: only for
input, select and textarea elements with a nonempty id, searched in the
top document; the found label's trimmed text counts even when empty. -/
def labelByForCS (doc : Ctx) (e : Elem) : Option String :=
  if e.data.tag ∈ ["input", "select", "textarea"] ∧ e.data.idAttr ≠ "" then
    match firstLabelFor doc e.data.idAttr with
    | Option.some lp => (getAt doc lp).map (fun l => strTrim (textContent l))
    | Option.none => Option.none
  else Option.none

/-- The id-linkage rule as part_007 implements it: any element with a
nonempty id; an empty trimmed label text falls through to the next
rule. -/
def labelByForP7 (doc : Ctx) (e : Elem) : Option String :=
  if e.data.idAttr ≠ "" then
    match firstLabelFor doc e.data.idAttr with
    | Option.some lp => (getAt doc lp).bind (fun l => strToOpt (strTrim (textContent l)))
    | Option.none => Option.none
  else Option.none

/-- Modelled from the spec's words, not from the code: resolve a label
by trying (1) an explicitly associated label via id linkage, (2) the
nearest enclosing label ancestor, (3) an immediately preceding sibling
label; the first rule that matches determines the label. -/
def specLabel (doc : Ctx) (ctx : Ctx) (p : Path) : Option String :=
  match getAt ctx p with
  | Option.none => Option.none
  | Option.some e =>
    let r1 : Option String :=
      if e.data.idAttr ≠ "" then
        (firstLabelFor doc e.data.idAttr).bind
          (fun lp => (getAt doc lp).map (fun l => strTrim (textContent l)))
      else Option.none
    let r2 : Option String :=
      ((ancestorElems ctx p).find? (fun a => a.data.tag = "label")).map
        (fun a => strTrim (textContent a))
    let r3 : Option String := prevSiblingLabel ctx p
    (r1.orElse (fun _ => r2)).orElse (fun _ => r3)

theorem matches_labelFor (doc : Ctx) (i : String) (hi : i ≠ "") (q : Path) :
    matchesSel doc [labelForCompound i] q =
      (match getAt doc q with
       | Option.some l => l.data.tag = "label" && l.data.forAttr = i
       | Option.none => false) := by
  cases hq : getAt doc q with
  | none => simp [matchesSel, matchRev, matchesCompound, hq]
  | some l =>
    by_cases htag : l.data.tag = "label"
    · by_cases hfe : l.data.forAttr = ""
      · simp [matchesSel, matchRev, matchesCompound, labelForCompound, hq,
          attrVal, htag, hfe, Ne.symm hi]
      · simp [matchesSel, matchRev, matchesCompound, labelForCompound, hq,
          attrVal, htag, hfe]
    · simp [matchesSel, matchRev, matchesCompound, labelForCompound, hq,
        attrVal, htag, Ne.symm htag]

theorem queryOne_labelFor (doc : Ctx) (i : String) (hi : i ≠ "") :
    queryOne doc [labelForCompound i] = firstLabelFor doc i := by
  unfold queryOne queryAll firstLabelFor
  rw [List.filter_congr (fun q _ => matches_labelFor doc i hi q)]

theorem getAt_take_isSome :
    ∀ (p : Path) (ctx : Ctx) (e : Elem), getAt ctx p = Option.some e →
      ∀ k, 0 < k → k < p.length → (getAt ctx (p.take k)).isSome := by
  intro p
  induction p with
  | nil =>
    intro ctx e _ k _ hlen
    simp at hlen
  | cons i rest ih =>
    intro ctx e h k hk hlen
    cases rest with
    | nil =>
      simp at hlen
      omega
    | cons j rs =>
      have hstep : getAt ctx (i :: j :: rs) =
          (match ctx.toList.get? i with
           | Option.some e0 => getAt e0.childrenF (j :: rs)
           | Option.none => Option.none) := rfl
      rw [hstep] at h
      cases hg : ctx.toList.get? i with
      | none =>
        rw [hg] at h
        exact absurd h (by simp)
      | some e0 =>
        rw [hg] at h
        have hg2 : (Forest.toList ctx)[i]? = Option.some e0 := by
          simpa using hg
        cases k with
        | zero => omega
        | succ k2 =>
          cases k2 with
          | zero =>
            show (getAt ctx [i]).isSome
            simp [getAt, hg2]
          | succ k3 =>
            have hres := ih e0.childrenF e h (k3 + 1) (by omega)
              (by simp only [List.length_cons] at hlen ⊢; omega)
            show (getAt ctx (i :: j :: rs.take k3)).isSome
            have heq : getAt ctx (i :: j :: rs.take k3) =
                getAt e0.childrenF ((j :: rs).take (k3 + 1)) := by
              simp [getAt, hg2]
            rw [heq]
            exact hres

theorem ancestorLabel_find (ctx : Ctx) :
    ∀ (rp : Path),
      (∀ k, 0 < k → k ≤ rp.length → (getAt ctx (rp.reverse.take k)).isSome) →
      ancestorLabel ctx rp =
        (((List.range' 1 rp.length).reverse.filterMap
            (fun k => getAt ctx (rp.reverse.take k))).find?
          (fun a => a.data.tag = "label")).bind
          (fun a => strToOpt (strTrim (textContent a))) := by
  intro rp
  induction rp with
  | nil =>
    intro _
    simp [ancestorLabel]
  | cons i rest ih =>
    intro hval
    have hcur := hval (rest.length + 1) (by omega) (by simp)
    have hfull : (i :: rest).reverse.take (rest.length + 1) = (i :: rest).reverse := by
      have hl : ((i :: rest).reverse).length = rest.length + 1 := by simp
      rw [← hl, List.take_length]
    rw [hfull] at hcur
    obtain ⟨a, ha⟩ := Option.isSome_iff_exists.mp hcur
    have hrange : (List.range' 1 (rest.length + 1)).reverse =
        (rest.length + 1) :: (List.range' 1 rest.length).reverse := by
      rw [List.range'_concat, List.reverse_append]
      simp [Nat.add_comm]
    have hstep : ancestorLabel ctx (i :: rest) =
        (match getAt ctx ((i :: rest).reverse) with
         | Option.none => Option.none
         | Option.some e =>
           if e.data.tag = "label" then strToOpt (strTrim (textContent e))
           else ancestorLabel ctx rest) := rfl
    rw [hstep, ha, List.length_cons, hrange, List.filterMap_cons]
    simp only [hfull, ha]
    have htail : (List.range' 1 rest.length).reverse.filterMap
        (fun k => getAt ctx ((i :: rest).reverse.take k)) =
        (List.range' 1 rest.length).reverse.filterMap
        (fun k => getAt ctx (rest.reverse.take k)) := by
      refine List.filterMap_congr ?_
      intro k hkmem
      rcases List.mem_range'_1.mp (List.mem_reverse.mp hkmem) with ⟨hk1, hk2⟩
      have hkle : k ≤ rest.length := by omega
      have : (i :: rest).reverse.take k = rest.reverse.take k := by
        rw [List.reverse_cons]
        exact List.take_append_of_le_length (by simpa using hkle)
      rw [this]
    have hvalrest : ∀ k, 0 < k → k ≤ rest.length →
        (getAt ctx (rest.reverse.take k)).isSome := by
      intro k hk hkle
      have h2 := hval k hk (by simp only [List.length_cons]; omega)
      have : (i :: rest).reverse.take k = rest.reverse.take k := by
        rw [List.reverse_cons]
        exact List.take_append_of_le_length (by simpa using hkle)
      rwa [this] at h2
    by_cases hlab : a.data.tag = "label"
    · rw [if_pos hlab, List.find?_cons_of_pos _ (by simp [hlab])]
      rfl
    · rw [if_neg hlab, List.find?_cons_of_neg _ (by simp [hlab]), htail]
      exact ih hvalrest

theorem reverse_tail_dropLast (p : Path) : p.reverse.tail = p.dropLast.reverse := by
  induction p using List.reverseRecOn with
  | nil => rfl
  | append_singleton l a _ => simp

theorem ancestorLabel_eq_nearest (ctx : Ctx) (p : Path) (e : Elem)
    (he : getAt ctx p = Option.some e) :
    ancestorLabel ctx p.reverse.tail = nearestAncestorLabel ctx p := by
  rw [reverse_tail_dropLast]
  have hval : ∀ k, 0 < k → k ≤ p.dropLast.reverse.length →
      (getAt ctx (p.dropLast.reverse.reverse.take k)).isSome := by
    intro k hk hlen
    rw [List.reverse_reverse]
    simp only [List.length_reverse, List.length_dropLast] at hlen
    have h1 : p.dropLast.take k = p.take k := by
      rw [List.dropLast_eq_take, List.take_take]
      congr 1
      omega
    rw [h1]
    exact getAt_take_isSome p ctx e he k hk (by omega)
  rw [ancestorLabel_find ctx p.dropLast.reverse hval]
  have hlist : (List.range' 1 p.dropLast.reverse.length).reverse.filterMap
      (fun k => getAt ctx (p.dropLast.reverse.reverse.take k)) =
      (List.range' 1 (p.length - 1)).reverse.filterMap
      (fun k => getAt ctx (p.take k)) := by
    have hlen : p.dropLast.reverse.length = p.length - 1 := by simp
    rw [hlen]
    refine List.filterMap_congr ?_
    intro k hkmem
    rcases List.mem_range'_1.mp (List.mem_reverse.mp hkmem) with ⟨hk1, hk2⟩
    rw [List.reverse_reverse, List.dropLast_eq_take, List.take_take]
    congr 2
    omega
  rw [hlist]
  rfl

/-- C7 (the code violates the claim): no source function implements all
three precedence rules.  `extractLabelText` has no enclosing-ancestor
rule: for an input wrapped directly in `<label>Name</label>` it yields
no label where the spec's three-rule resolution yields "Name".
`resolveLabelText` has no preceding-sibling rule: for
`<label>Nm</label><input>` it yields no label where the spec's
resolution yields "Nm". -/
theorem label_precedence_counterexample :
    extractLabelText ancestorLabelDoc ancestorLabelDoc [0, 0, 0, 0] =
      Option.none ∧
    specLabel ancestorLabelDoc ancestorLabelDoc [0, 0, 0, 0] =
      Option.some "Name" ∧
    resolveLabelText siblingLabelDoc siblingLabelDoc [0, 0, 1] =
      Option.none ∧
    specLabel siblingLabelDoc siblingLabelDoc [0, 0, 1] =
      Option.some "Nm" := by
  refine ⟨?_, ?_, ?_, ?_⟩ <;> decide

/-- C7 amended: the label of a detected field is resolved by two
two-rule chains, not one three-rule chain.  `extractLabelText`
(contentscript.ts) tries the id linkage (restricted to input, select
and textarea elements with a nonempty id, searched in the top document,
an empty label text counting as a match) and then an immediately
preceding sibling label; it has no ancestor rule.  `resolveLabelText`
(part_007) tries the id linkage (any nonempty id, an empty trimmed
label text falling through) and then the nearest enclosing label
ancestor, collapsing whitespace in the result; it has no sibling rule.
In each chain the first rule that matches wins and no match yields an
absent label. -/
theorem label_precedence_amended (topDoc ctx : Ctx) (p : Path) (e : Elem)
    (he : getAt ctx p = Option.some e) :
    extractLabelText topDoc ctx p =
      ((labelByForCS topDoc e).orElse (fun _ => prevSiblingLabel ctx p)) ∧
    resolveLabelText topDoc ctx p =
      (((labelByForP7 topDoc e).orElse
        (fun _ => nearestAncestorLabel ctx p)).map collapseWs) := by
  constructor
  · simp only [extractLabelText, he, labelByForCS]
    by_cases hg : e.data.tag ∈ ["input", "select", "textarea"] ∧ e.data.idAttr ≠ ""
    · rw [if_pos hg, if_pos hg, queryOne_labelFor topDoc _ hg.2]
      cases hq : firstLabelFor topDoc e.data.idAttr with
      | none => simp [Option.orElse, prevSiblingLabel]
      | some lp =>
        cases hl : getAt topDoc lp with
        | none => simp [Option.orElse, prevSiblingLabel, hl]
        | some l => simp [Option.orElse, hl]
    · rw [if_neg hg, if_neg hg]
      simp [Option.orElse, prevSiblingLabel]
  · simp only [resolveLabelText, he, labelByForP7]
    by_cases hid : e.data.idAttr ≠ ""
    · rw [if_pos hid, if_pos hid, queryOne_labelFor topDoc _ hid]
      cases hq : firstLabelFor topDoc e.data.idAttr with
      | none =>
        rw [ancestorLabel_eq_nearest ctx p e he]
        simp [Option.orElse]
      | some lp =>
        cases hl : getAt topDoc lp with
        | none =>
          rw [ancestorLabel_eq_nearest ctx p e he]
          simp [Option.orElse, hl]
        | some l =>
          cases hs : strToOpt (strTrim (textContent l)) with
          | none =>
            rw [ancestorLabel_eq_nearest ctx p e he]
            simp [Option.orElse, hl, hs]
          | some t => simp [Option.orElse, hl, hs]
    · rw [if_neg hid, if_neg hid]
      rw [ancestorLabel_eq_nearest ctx p e he]
      simp [Option.orElse]

/-- Witness: the amended two-chain description instantiated at the
sibling-label document's input element. -/
theorem label_precedence_amended_witness :
    extractLabelText siblingLabelDoc siblingLabelDoc [0, 0, 1] =
      ((labelByForCS siblingLabelDoc inputEl).orElse
        (fun _ => prevSiblingLabel siblingLabelDoc [0, 0, 1])) ∧
    resolveLabelText siblingLabelDoc siblingLabelDoc [0, 0, 1] =
      (((labelByForP7 siblingLabelDoc inputEl).orElse
        (fun _ => nearestAncestorLabel siblingLabelDoc [0, 0, 1])).map
        collapseWs) :=
  label_precedence_amended siblingLabelDoc siblingLabelDoc [0, 0, 1] inputEl rfl

end VibeSheet
